import Mathlib

/-!
Verification of the chloroplast assembly pipeline
(`scripts/alineador.py`, `scripts/BAMtsv.py`).

Sequences are shallowly embedded as `List Char`; the pure core of each
Python function is translated into an executable Lean definition and the
spec claims are settled as theorems about those definitions.
-/

/-- Character complement table of `str.maketrans("ACGTacgtnN","TGCAtgcanN")`
used by `revcomp` in `rotate_to_reference_anchor` and
`_flip_segment_in_oneline`: characters outside the table are unchanged. -/

def compChar (c : Char) : Char :=
  if c = 'A' then 'T' else if c = 'C' then 'G'
  else if c = 'G' then 'C' else if c = 'T' then 'A'
  else if c = 'a' then 't' else if c = 'c' then 'g'
  else if c = 'g' then 'c' else if c = 't' then 'a'
  else if c = 'n' then 'n' else if c = 'N' then 'N'
  else c

/-- `revcomp(seq) = seq.translate(tbl)[::-1]` from `alineador.py`. -/
def revcomp (s : List Char) : List Char :=
  (s.map compChar).reverse

/-- Core of `_flip_segment_in_oneline` (alineador.py): with
`a = s[:start-1]`, `b = s[start-1:end]`, `c = s[end:]` the written
sequence is `a + revcomp(b) + c`. -/
def flip_segment (s : List Char) (start_1based end_1based : ℕ) : List Char :=
  (s.take (start_1based - 1))
    ++ revcomp ((s.drop (start_1based - 1)).take (end_1based - (start_1based - 1)))
    ++ s.drop end_1based

/-- The DNA alphabet the segment-flip claim ranges over. -/
def isDnaN (c : Char) : Prop :=
  c = 'A' ∨ c = 'C' ∨ c = 'G' ∨ c = 'T' ∨ c = 'N' ∨
  c = 'a' ∨ c = 'c' ∨ c = 'g' ∨ c = 't' ∨ c = 'n'

instance (c : Char) : Decidable (isDnaN c) := by
  unfold isDnaN; infer_instance

/-- Core of the per-position loop of `apply_mutations_single_contig`
(alineador.py): `idx = pos - 1; if 0 <= idx < len(seq): seq[idx] = base`,
iterated over the mutation map entries. -/
def apply_mutations (seq : List Char) (muts : List (ℕ × Char)) : List Char :=
  muts.foldl
    (fun s pb => if 1 ≤ pb.1 ∧ pb.1 - 1 < s.length then s.set (pb.1 - 1) pb.2 else s)
    seq

/-- The per-row decision of `load_mutations` (alineador.py): Python's
`max(range(4), key=lambda i: counts[i])` keeps the first maximal index,
so ties are broken in the fixed order A, C, G, T. -/
def argmax_base (a c g t : ℕ) : Char :=
  ([('C', c), ('G', g), ('T', t)].foldl
    (fun acc bc => if bc.2 > acc.2 then bc else acc) ('A', a)).1

/-- Row logic of `load_mutations` (alineador.py):
`total = dot + comma + A + C + G + T`; rows with `total == 0` are skipped;
a mutation is recorded when the reference does not dominate, i.e. when
`dot + comma == 0` or `(dot + comma) / total < 0.5`. -/
def mutation_of_row (dot comma a c g t : ℕ) : Option Char :=
  let total := dot + comma + a + c + g + t
  if total = 0 then none
  else if dot + comma = 0 ∨ ((dot + comma : ℚ) / (total : ℚ) < 1/2) then
    some (argmax_base a c g t)
  else none

/-- A k-mer window of the uppercased sequence qualifies when it contains
no `'N'` and all its characters are unambiguous bases
(`_kmer_jaccard.kmerset` in alineador.py). -/
def kmerOk (w : List Char) : Bool :=
  !w.contains 'N' && w.all (fun c => ['A', 'C', 'G', 'T'].contains c)

/-- `kmerset(s)` of `_kmer_jaccard` (alineador.py) on an already
uppercased sequence: the set of qualifying k-windows. -/
def kmerset (s : List Char) (k : ℕ) : Finset (List Char) :=
  (((List.range (s.length + 1 - k)).map (fun i => (s.drop i).take k)).filter
    kmerOk).toFinset

/-- `_kmer_jaccard(s1, s2, k)` (alineador.py): uppercase both inputs,
return 0 when either is shorter than `k` or both k-mer sets are empty,
otherwise `|A ∩ B| / |A ∪ B|` (0 if the union is empty). -/
def kmer_jaccard (s1 s2 : List Char) (k : ℕ) : ℚ :=
  let u1 := s1.map Char.toUpper
  let u2 := s2.map Char.toUpper
  if u1.length < k ∨ u2.length < k then 0
  else
    let A := kmerset u1 k
    let B := kmerset u2 k
    if A = ∅ ∧ B = ∅ then 0
    else
      let inter := (A ∩ B).card
      let uni := (A ∪ B).card
      if uni = 0 then 0 else (inter : ℚ) / (uni : ℚ)

/-- An unambiguous base character (the alphabet for the self-Jaccard
part of claim C9: gap-free, no `N`). -/
def isUnambiguousBase (c : Char) : Prop :=
  c = 'A' ∨ c = 'C' ∨ c = 'G' ∨ c = 'T' ∨
  c = 'a' ∨ c = 'c' ∨ c = 'g' ∨ c = 't'

instance (c : Char) : Decidable (isUnambiguousBase c) := by
  unfold isUnambiguousBase; infer_instance

/-- Count of rows whose (uppercased) character at column `i` equals base
`b`, as accumulated by the per-column `counts` dict of
`_consensus_from_entries` (alineador.py). -/
def countBase (aligned : List (List Char)) (i : ℕ) (b : Char) : ℕ :=
  aligned.countP (fun s => s[i]?.map Char.toUpper == some b)

/-- The `best, cnt = None, 0; for b in ACGT: if counts[b] > cnt` loop of
`_consensus_from_entries`: strict improvement, so ties keep the earlier
base. -/
def best_base_fold (cA cC cG cT : ℕ) : Option Char × ℕ :=
  [('A', cA), ('C', cC), ('G', cG), ('T', cT)].foldl
    (fun acc bc => if bc.2 > acc.2 then (some bc.1, bc.2) else acc) (none, 0)

/-- Column consensus of `_consensus_from_entries`: the best base when its
count is positive, otherwise `'N'`. -/
def consensus_base (cA cC cG cT : ℕ) : Char :=
  let r := best_base_fold cA cC cG cT
  if 0 < r.2 then r.1.getD 'N' else 'N'

/-- `_consensus_from_entries(aligned_seqs)` (alineador.py): `""` for an
empty list; a `ValueError` (modelled as `none`) when some sequence's
length differs from the first one's; otherwise the column-wise consensus
string. -/
def consensus_from_entries (aligned : List (List Char)) : Option (List Char) :=
  match aligned with
  | [] => some []
  | s0 :: rest =>
    if ∀ s ∈ s0 :: rest, s.length = s0.length then
      some ((List.range s0.length).map (fun i =>
        consensus_base
          (countBase (s0 :: rest) i 'A') (countBase (s0 :: rest) i 'C')
          (countBase (s0 :: rest) i 'G') (countBase (s0 :: rest) i 'T')))
    else none

/-- Unambiguous-base test on an uppercased character. -/
def isACGT (c : Char) : Bool :=
  c = 'A' || c = 'C' || c = 'G' || c = 'T'

/-- The `consensus_base` helper of `_assess_alignment_quality`
(alineador.py): same strict-improvement loop as the consensus builder but
returning `None` instead of `'N'` when every count is zero. -/
def consensus_base_opt (cA cC cG cT : ℕ) : Option Char :=
  let r := best_base_fold cA cC cG cT
  if 0 < r.2 then r.1 else none

/-- Column consensus of the previous rows at column `i`, as used by
`_assess_alignment_quality`. -/
def colConsensus (prev : List (List Char)) (i : ℕ) : Option Char :=
  consensus_base_opt (countBase prev i 'A') (countBase prev i 'C')
    (countBase prev i 'G') (countBase prev i 'T')

/-- The per-column loop of `_assess_alignment_quality`: accumulates
`(matches, considered)` over the columns of the newest row; a column is
skipped when the previous rows give no consensus or the newest character
(uppercased) is a gap or `N`. -/
def assess_counts (prev : List (List Char)) (newSeq : List Char) : ℕ × ℕ :=
  newSeq.enum.foldl (fun mc ic =>
    match colConsensus prev ic.1 with
    | none => mc
    | some cons =>
      let q := ic.2.toUpper
      if q = '-' ∨ q = '.' ∨ q = 'N' then mc
      else (mc.1 + (if q = cons then 1 else 0), mc.2 + 1)) (0, 0)

/-- `_assess_alignment_quality` (alineador.py) on the parsed entries
(sequences of the MAFFT output, in order): returns
`(ok, identity, considered, aligned_length)`. -/
def assess_alignment_quality (entries : List (List Char)) (min_identity : ℚ) :
    Bool × ℚ × ℕ × ℕ :=
  if entries.length < 2 then (false, 0, 0, 0)
  else
    match entries.getLast? with
    | none => (false, 0, 0, 0)
    | some newSeq =>
      if newSeq.length = 0 ∨ ∃ s ∈ entries.dropLast, s.length ≠ newSeq.length then
        (false, 0, 0, newSeq.length)
      else if (assess_counts entries.dropLast newSeq).2 = 0 then
        (false, 0, 0, newSeq.length)
      else
        (decide (min_identity ≤
            ((assess_counts entries.dropLast newSeq).1 : ℚ) /
              ((assess_counts entries.dropLast newSeq).2 : ℚ)),
         ((assess_counts entries.dropLast newSeq).1 : ℚ) /
           ((assess_counts entries.dropLast newSeq).2 : ℚ),
         (assess_counts entries.dropLast newSeq).2, newSeq.length)

/-- Columns of the newest row that the code considers: previous rows give
a consensus and the newest character is not a gap and not `N`. -/
def isConsideredCol (prev : List (List Char)) (ic : ℕ × Char) : Bool :=
  (colConsensus prev ic.1).isSome &&
    !(ic.2.toUpper = '-' || ic.2.toUpper = '.' || ic.2.toUpper = 'N')

/-- Considered columns that match the consensus. -/
def isMatchCol (prev : List (List Char)) (ic : ℕ × Char) : Bool :=
  isConsideredCol prev ic && (colConsensus prev ic.1 == some ic.2.toUpper)

/-- Declarative count of considered columns. -/
def consideredCount (prev : List (List Char)) (newSeq : List Char) : ℕ :=
  (newSeq.enum.filter (isConsideredCol prev)).length

/-- Declarative count of matching columns. -/
def matchCount (prev : List (List Char)) (newSeq : List Char) : ℕ :=
  (newSeq.enum.filter (isMatchCol prev)).length

/-- Claim-side column rule of C1: a column is counted only when the prior
rows give an unambiguous consensus base and the newest row also has an
unambiguous base (A/C/G/T, case-insensitive) there. -/
def claimConsideredCol (prev : List (List Char)) (ic : ℕ × Char) : Bool :=
  (colConsensus prev ic.1).isSome && isACGT ic.2.toUpper

/-- Claim-side considered-column count of C1. -/
def claimConsidered (prev : List (List Char)) (newSeq : List Char) : ℕ :=
  (newSeq.enum.filter (claimConsideredCol prev)).length

/-- Claim-side matching-column count of C1. -/
def claimMatches (prev : List (List Char)) (newSeq : List Char) : ℕ :=
  (newSeq.enum.filter (fun ic => claimConsideredCol prev ic &&
    (colConsensus prev ic.1 == some ic.2.toUpper))).length

/-- The category counters of `parse_pileup_line` (BAMtsv.py):
'.', ',', A, C, G, T, N, '+', '-', '^', '$', other. -/
structure PileupCounts where
  dot : ℕ
  comma : ℕ
  a : ℕ
  c : ℕ
  g : ℕ
  t : ℕ
  n : ℕ
  plus : ℕ
  minus : ℕ
  caret : ℕ
  dollar : ℕ
  other : ℕ
deriving DecidableEq

/-- The zero-initialized counter dict. -/
def PileupCounts.zero : PileupCounts := ⟨0,0,0,0,0,0,0,0,0,0,0,0⟩

/-- Sum of all category counts of a pileup row. -/
def sumCounts (p : PileupCounts) : ℕ :=
  p.dot + p.comma + p.a + p.c + p.g + p.t + p.n +
    p.plus + p.minus + p.caret + p.dollar + p.other

/-- Value of a leading decimal digit run (the `int(m.group(1))` of the
indel branch of `parse_pileup_line`). -/
def digitVal (ds : List Char) : ℕ :=
  ds.foldl (fun acc d => acc * 10 + (d.toNat - 48)) 0

/-- Add one count to the A/C/G/T/N category named by an uppercase
character (no-op for other characters). -/
def bumpBase (p : PileupCounts) (cu : Char) : PileupCounts :=
  if cu = 'A' then { p with a := p.a + 1 }
  else if cu = 'C' then { p with c := p.c + 1 }
  else if cu = 'G' then { p with g := p.g + 1 }
  else if cu = 'T' then { p with t := p.t + 1 }
  else if cu = 'N' then { p with n := p.n + 1 }
  else p

/-- The IUPAC ambiguity table of `parse_pileup_line`. -/
def iupacComponents (cu : Char) : List Char :=
  if cu = 'R' then ['A', 'G'] else if cu = 'Y' then ['C', 'T']
  else if cu = 'S' then ['G', 'C'] else if cu = 'W' then ['A', 'T']
  else if cu = 'K' then ['G', 'T'] else if cu = 'M' then ['A', 'C']
  else if cu = 'B' then ['C', 'G', 'T'] else if cu = 'D' then ['A', 'G', 'T']
  else if cu = 'H' then ['A', 'C', 'T'] else if cu = 'V' then ['A', 'C', 'G']
  else []

/-- The `counts[c] += 1` of the indel branch: `c` is `'+'` or `'-'`. -/
def bumpIndel (p : PileupCounts) (ch : Char) : PileupCounts :=
  if ch = '+' then { p with plus := p.plus + 1 }
  else { p with minus := p.minus + 1 }

/-- The `while i < len(bases)` loop of `parse_pileup_line` (BAMtsv.py),
fuelled by the length of the remaining input (every iteration consumes at
least one character). Also counts the number of pileup symbols consumed,
one per loop iteration. -/
def parse_pileup_go : ℕ → List Char → PileupCounts → ℕ → PileupCounts × ℕ
  | 0, _, counts, symbols => (counts, symbols)
  | _ + 1, [], counts, symbols => (counts, symbols)
  | fuel + 1, ch :: rest, counts, symbols =>
    if ch = '^' then
      parse_pileup_go fuel (rest.drop 1)
        { counts with caret := counts.caret + 1 } (symbols + 1)
    else if ch = '$' then
      parse_pileup_go fuel rest
        { counts with dollar := counts.dollar + 1 } (symbols + 1)
    else if ch = '.' then
      parse_pileup_go fuel rest
        { counts with dot := counts.dot + 1 } (symbols + 1)
    else if ch = ',' then
      parse_pileup_go fuel rest
        { counts with comma := counts.comma + 1 } (symbols + 1)
    else if ch = '+' ∨ ch = '-' then
      if rest.takeWhile Char.isDigit = [] then
        ({ bumpIndel counts ch with other := (bumpIndel counts ch).other + 1 },
         symbols + 1)
      else
        parse_pileup_go fuel
          (rest.drop ((rest.takeWhile Char.isDigit).length +
            digitVal (rest.takeWhile Char.isDigit)))
          (bumpIndel counts ch) (symbols + 1)
    else if ch.toUpper = 'A' ∨ ch.toUpper = 'C' ∨ ch.toUpper = 'G' ∨
        ch.toUpper = 'T' ∨ ch.toUpper = 'N' then
      parse_pileup_go fuel rest (bumpBase counts ch.toUpper) (symbols + 1)
    else if ch = '*' then
      parse_pileup_go fuel rest counts (symbols + 1)
    else if iupacComponents ch.toUpper ≠ [] then
      parse_pileup_go fuel rest
        ((iupacComponents ch.toUpper).foldl bumpBase counts) (symbols + 1)
    else
      parse_pileup_go fuel rest
        { counts with other := counts.other + 1 } (symbols + 1)

/-- Parse the base-call field of one pileup line, returning the category
counts and the number of pileup symbols consumed. -/
def parse_pileup_bases (bases : List Char) : PileupCounts × ℕ :=
  parse_pileup_go bases.length bases PileupCounts.zero 0

/-- Well-formed indel markers: every `+`/`-` character is immediately
followed by a digit. -/
def indelOk (l : List Char) : Prop :=
  ∀ i, i < l.length → ((l)[i]? = some '+' ∨ (l)[i]? = some '-') →
    ((l)[i + 1]?.elim false Char.isDigit) = true

instance (l : List Char) : Decidable (indelOk l) := by
  unfold indelOk
  infer_instance

/-- Result of `_smith_waterman_endpoints` (alineador.py): `noAlign` models
the Python `None`, `endpoints` a returned 4-tuple, and `typeError` the
`TypeError` raised when the traceback compares the leftover character
value of the shadowed loop variable `bj` with an integer. -/
inductive SWResult where
  | noAlign : SWResult
  | endpoints : ℕ × ℕ × ℕ × ℕ → SWResult
  | typeError : SWResult
deriving DecidableEq

/-- Fill state of `_smith_waterman_endpoints`: the H rows and T rows
computed so far, the best score, its row index `bi`, and the variable
`bj`, which the source reuses both for the current column character
(assigned at the top of every inner iteration) and for the best column
index (assigned on a strict improvement). -/
structure SWState where
  rows : List (List ℤ)
  trows : List (List ℕ)
  best : ℤ
  bi : ℕ
  bj : ℤ ⊕ Char
deriving DecidableEq

/-- One inner iteration (column `j`, 1-based) of the fill loop of
`_smith_waterman_endpoints`: `bj = b[j-1]`; score; `val = max(0, diag,
up, left)`; traceback tag 0/1/2/3 with tie order diagonal, up, left;
append to the current row; update the best cell on strict improvement. -/
def swInner (b : List Char) (mtch msm gap : ℤ) (ai : Char) (i : ℕ)
    (prevRow : List ℤ)
    (st : (List ℤ × List ℕ) × ℤ × ℕ × (ℤ ⊕ Char)) (j : ℕ) :
    (List ℤ × List ℕ) × ℤ × ℕ × (ℤ ⊕ Char) :=
  let bjChar := b.getD (j - 1) ' '
  let s := if ai = bjChar then mtch else msm
  let diag := prevRow.getD (j - 1) 0 + s
  let up := prevRow.getD j 0 + gap
  let left := st.1.1.getD (j - 1) 0 + gap
  let val := max 0 (max diag (max up left))
  let t : ℕ := if val = 0 then 0 else if val = diag then 1
    else if val = up then 2 else 3
  let cur := st.1.1 ++ [val]
  let tcur := st.1.2 ++ [t]
  if val > st.2.1 then ((cur, tcur), val, i, Sum.inl (j : ℤ))
  else ((cur, tcur), st.2.1, st.2.2.1, Sum.inr bjChar)

/-- One outer iteration (row `i`, 1-based): run the inner loop over the
columns, starting the new H and T rows from their zero-initialized first
entries. -/
def swRowFold (b : List Char) (mtch msm gap : ℤ) (ai : Char) (i : ℕ)
    (prevRow : List ℤ) (best : ℤ) (bi : ℕ) (bj : ℤ ⊕ Char) :
    (List ℤ × List ℕ) × ℤ × ℕ × (ℤ ⊕ Char) :=
  (List.range b.length).foldl
    (fun st j0 => swInner b mtch msm gap ai i prevRow st (j0 + 1))
    (([0], [0]), best, bi, bj)

/-- The nested fill loops of `_smith_waterman_endpoints`. The source
preallocates all rows of H and T as zeros and fills them in place; row
`i` reads only row `i-1` and its own prefix, so building the rows one by
one is equivalent. `best = 0`, `bi = bj = 0` initially (both integers). -/
def swFill (a b : List Char) (mtch msm gap : ℤ) : SWState :=
  (List.range a.length).foldl (fun st i0 =>
    let r := swRowFold b mtch msm gap (a.getD i0 ' ') (i0 + 1)
      (st.rows.getD i0 []) st.best st.bi st.bj
    { rows := st.rows ++ [r.1.1], trows := st.trows ++ [r.1.2],
      best := r.2.1, bi := r.2.2.1, bj := r.2.2.2 })
    { rows := [List.replicate (b.length + 1) 0],
      trows := [List.replicate (b.length + 1) 0],
      best := 0, bi := 0, bj := Sum.inl 0 }

/-- The traceback loop of `_smith_waterman_endpoints`:
`while i > 0 and j > 0 and H[i][j] > 0`, moving diagonally, up or left
according to T, stopping on tag 0. Fuelled by `i + j`. -/
def swTraceback (rows : List (List ℤ)) (trows : List (List ℕ)) :
    ℕ → ℕ → ℕ → ℕ × ℕ
  | 0, i, j => (i, j)
  | fuel + 1, i, j =>
    if 0 < i ∧ 0 < j ∧ 0 < (rows.getD i []).getD j 0 then
      if (trows.getD i []).getD j 0 = 1 then
        swTraceback rows trows fuel (i - 1) (j - 1)
      else if (trows.getD i []).getD j 0 = 2 then
        swTraceback rows trows fuel (i - 1) j
      else if (trows.getD i []).getD j 0 = 3 then
        swTraceback rows trows fuel i (j - 1)
      else (i, j)
    else (i, j)

/-- `_smith_waterman_endpoints(a, b, match, mismatch, gap)`
(alineador.py), including the `bj` variable-shadowing behavior: when the
best score is positive but the last assignment to `bj` was the character
`b[j-1]` rather than the best column index, the Python traceback
condition `j > 0` compares a `str` with an `int` and raises `TypeError`,
modelled as `SWResult.typeError`. -/
def smith_waterman_endpoints (a b : List Char) (mtch msm gap : ℤ) : SWResult :=
  if a.length = 0 ∨ b.length = 0 then SWResult.noAlign
  else
    let st := swFill a b mtch msm gap
    if st.best ≤ 0 then SWResult.noAlign
    else
      match st.bj with
      | Sum.inr _ => SWResult.typeError
      | Sum.inl bj =>
        let bjn := bj.toNat
        let tb := swTraceback st.rows st.trows (st.bi + bjn) st.bi bjn
        SWResult.endpoints (tb.1 + 1, st.bi, tb.2 + 1, bjn)

/-- Wildcard-tolerant mismatch count of `rotate_to_reference_anchor`
(alineador.py): `N` on either side never counts; `zip` truncates to the
shorter sequence. -/
def wildcardMismatches (p t : List Char) : ℕ :=
  (List.zipWith (fun x y => if x = y ∨ x = 'N' ∨ y = 'N' then 0 else 1) p t).sum

/-- `match_with_mismatches(text, pattern, max_mm)` of
`rotate_to_reference_anchor`: the first offset whose window is within the
mismatch tolerance, or none (the source returns -1). -/
def match_with_mismatches (text pattern : List Char) (maxMm : ℕ) : Option ℕ :=
  if pattern.length > text.length then none
  else (List.range (text.length - pattern.length + 1)).find?
    (fun i => wildcardMismatches pattern ((text.drop i).take pattern.length) ≤ maxMm)

/-- The `if best is None or mm < best[2]` update of
`rotate_to_reference_anchor`: replace the running best exactly when the
new候    candidate's recorded mismatch count is strictly smaller. -/
def stepMin : Option (Bool × ℕ × ℕ) → (Bool × ℕ × ℕ) →
    Option (Bool × ℕ × ℕ)
  | none, c => some c
  | some b, c => if c.2.2 < b.2.2 then some c else some b

/-- Strategy A of `rotate_to_reference_anchor`: the head-match candidate
`(orient, 0, mm_head)` when `mm_head <= max_mismatches` (empty list
otherwise; a singleton models the conditional candidate). -/
def candHead (first : List Char) (kFirst maxMm : ℕ) (orient : Bool)
    (qs : List Char) : List (Bool × ℕ × ℕ) :=
  -- kFirst is the anchor length; first = ref.take kFirst has that length
  if wildcardMismatches first (qs.take kFirst) ≤ maxMm then
    [(orient, 0, wildcardMismatches first (qs.take kFirst))]
  else []

/-- Strategy B: the circular-pattern candidate
`(orient, (pos + k_first) % len, max_mismatches)` when the `circ`
pattern is found in the doubled sequence; note the recorded mismatch
count is `max_mismatches`, not the hit's actual mismatch count. -/
def candCirc (circ : List Char) (kFirst maxMm : ℕ) (orient : Bool)
    (qs : List Char) : List (Bool × ℕ × ℕ) :=
  match match_with_mismatches (qs ++ qs) circ maxMm with
  | some pos => [(orient, (pos + kFirst) % qs.length, maxMm)]
  | none => []

/-- Strategy C: the first-anchor candidate
`(orient, pos2 % len, max_mismatches)` when `first` is found in the
doubled sequence at an offset below the sequence length; the recorded
mismatch count is again `max_mismatches`. -/
def candFirst (first : List Char) (_kFirst maxMm : ℕ) (orient : Bool)
    (qs : List Char) : List (Bool × ℕ × ℕ) :=
  match match_with_mismatches (qs ++ qs) first maxMm with
  | some pos2 => if pos2 < qs.length then [(orient, pos2 % qs.length, maxMm)] else []
  | none => []

/-- One iteration of the `for orient, qseq in candidates` loop of
`rotate_to_reference_anchor`: strategies A, B, C in order, each updating
the best via `stepMin`; the Boolean is the `break` taken when the head
matches exactly (`mm_head == 0`). -/
def processCandidate (first circ : List Char) (kFirst maxMm : ℕ) (orient : Bool)
    (qs : List Char) (best : Option (Bool × ℕ × ℕ)) :
    Option (Bool × ℕ × ℕ) × Bool :=
  if wildcardMismatches first (qs.take kFirst) ≤ maxMm ∧
      wildcardMismatches first (qs.take kFirst) = 0 then
    (stepMin best (orient, 0, wildcardMismatches first (qs.take kFirst)), true)
  else
    (((candFirst first kFirst maxMm orient qs).foldl stepMin
      ((candCirc circ kFirst maxMm orient qs).foldl stepMin
        ((candHead first kFirst maxMm orient qs).foldl stepMin best))), false)

/-- The candidate-selection loop of `rotate_to_reference_anchor` on
uppercased sequences: forward orientation first, then the reverse
complement unless the forward head matched exactly. -/
def rotate_best (ref q : List Char) (kFirst maxMm : ℕ) :
    Option (Bool × ℕ × ℕ) :=
  let first := ref.take kFirst
  let circ := ref.drop (ref.length - kFirst) ++ ref.take kFirst
  let p1 := processCandidate first circ kFirst maxMm true q none
  if p1.2 then p1.1
  else (processCandidate first circ kFirst maxMm false (revcomp q) p1.1).1

/-- `rotate_to_reference_anchor` (alineador.py) at the sequence level:
returns the (possibly reoriented and rotated) query sequence, or the
original query unchanged when the reference is shorter than the anchor,
the query is empty, no candidate is found, or the chosen candidate is the
forward orientation with cut 0. -/
def rotate_to_reference_anchor (ref qOrig : List Char) (kFirst maxMm : ℕ) :
    List Char :=
  if ref.length < kFirst ∨ qOrig.length = 0 then qOrig
  else
    match rotate_best (ref.map Char.toUpper) (qOrig.map Char.toUpper)
        kFirst maxMm with
    | none => qOrig
    | some (orient, cut, _) =>
      if cut = 0 ∧ orient = true then qOrig
      else
        let qseq := if orient then qOrig.map Char.toUpper
          else revcomp (qOrig.map Char.toUpper)
        qseq.drop cut ++ qseq.take cut

/-- All candidates found across the two orientations and three
strategies, in discovery order, with their recorded mismatch counts. -/
def foundCandidates (ref q : List Char) (kFirst maxMm : ℕ) :
    List (Bool × ℕ × ℕ) :=
  (candHead (ref.take kFirst) kFirst maxMm true q ++
    candCirc (ref.drop (ref.length - kFirst) ++ ref.take kFirst) kFirst maxMm true q ++
    candFirst (ref.take kFirst) kFirst maxMm true q) ++
  (candHead (ref.take kFirst) kFirst maxMm false (revcomp q) ++
    candCirc (ref.drop (ref.length - kFirst) ++ ref.take kFirst) kFirst maxMm false (revcomp q) ++
    candFirst (ref.take kFirst) kFirst maxMm false (revcomp q))

/-- First minimum of a candidate list by recorded mismatch count
(strictly smaller replaces, so ties keep the earlier candidate). -/
def firstMinBy (l : List (Bool × ℕ × ℕ)) : Option (Bool × ℕ × ℕ) :=
  l.foldl stepMin none

/-- Modelled from the claim's wording: the candidates of one orientation
with their ACTUAL mismatch counts (the head candidate's head mismatches;
for the two pattern strategies, the mismatches of the found window). -/
def claimCandsOf (first circ : List Char) (kFirst maxMm : ℕ) (orient : Bool)
    (qs : List Char) : List (Bool × ℕ × ℕ) :=
  (if wildcardMismatches first (qs.take kFirst) ≤ maxMm then
    [(orient, 0, wildcardMismatches first (qs.take kFirst))] else []) ++
  (match match_with_mismatches (qs ++ qs) circ maxMm with
   | some pos => [(orient, (pos + kFirst) % qs.length,
       wildcardMismatches circ (((qs ++ qs).drop pos).take circ.length))]
   | none => []) ++
  (match match_with_mismatches (qs ++ qs) first maxMm with
   | some pos2 =>
     if pos2 < qs.length then
       [(orient, pos2 % qs.length,
         wildcardMismatches first (((qs ++ qs).drop pos2).take first.length))]
     else []
   | none => [])

/-- Modelled from the claim's wording: all candidates across both
orientations with actual mismatch counts, in discovery order. -/
def claimCandidates (ref q : List Char) (kFirst maxMm : ℕ) :
    List (Bool × ℕ × ℕ) :=
  claimCandsOf (ref.take kFirst)
    (ref.drop (ref.length - kFirst) ++ ref.take kFirst) kFirst maxMm true q ++
  claimCandsOf (ref.take kFirst)
    (ref.drop (ref.length - kFirst) ++ ref.take kFirst) kFirst maxMm false
    (revcomp q)

/-- Modelled from the claim's wording: the candidate with the fewest
actual mismatches, ties broken toward the candidate (and hence the
orientation) found first. -/
def claimBest (ref q : List Char) (kFirst maxMm : ℕ) :
    Option (Bool × ℕ × ℕ) :=
  firstMinBy (claimCandidates ref q kFirst maxMm)

/-- Column classification of `_detect_inversion_block` (alineador.py):
`(comp, mis)` flags for one column — comparable when both uppercased
characters are unambiguous bases, mismatching when additionally they
differ. -/
def colFlags (a b : Char) : ℕ × ℕ :=
  if isACGT a.toUpper && isACGT b.toUpper then
    (1, if a.toUpper ≠ b.toUpper then 1 else 0)
  else (0, 0)

/-- The `comp` array of `_detect_inversion_block`. -/
def detectComp (cons new : List Char) : List ℕ :=
  List.zipWith (fun a b => (colFlags a b).1) cons new

/-- The `mis` array of `_detect_inversion_block`. -/
def detectMis (cons new : List Char) : List ℕ :=
  List.zipWith (fun a b => (colFlags a b).2) cons new

/-- `pref_comp = [0] + accumulate(comp)`. -/
def prefComp (cons new : List Char) : List ℕ :=
  List.scanl (· + ·) 0 (detectComp cons new)

/-- `pref_mis = [0] + accumulate(mis)`. -/
def prefMis (cons new : List Char) : List ℕ :=
  List.scanl (· + ·) 0 (detectMis cons new)

/-- `global_ratio = total_mis / total_comp if total_comp > 0 else 0.0`. -/
def globalRatio (cons new : List Char) : ℚ :=
  if 0 < (detectComp cons new).sum then
    ((detectMis cons new).sum : ℚ) / ((detectComp cons new).sum : ℚ)
  else 0

/-- `local_thr = max(0.35, min(thr, global_ratio + 0.25))`. -/
def localThr (cons new : List Char) (thr : ℚ) : ℚ :=
  max (35/100) (min thr (globalRatio cons new + 25/100))

/-- `step = max(100, window // 4)`. -/
def detectStep (window : ℕ) : ℕ :=
  max 100 (window / 4)

/-- The sampled window starts `range(0, L - window + 1, step)`. -/
def windowStarts (L window step : ℕ) : List ℕ :=
  List.range' 0 ((L + 1 - window + step - 1) / step) step

/-- Mismatch ratio of the window starting at `s`
(`mis_w / comp_w if comp_w > 0 else 0.0`). -/
def windowRatio (cons new : List Char) (window s : ℕ) : ℚ :=
  if 0 < (prefComp cons new).getD (s + window) 0 -
      (prefComp cons new).getD s 0 then
    (((prefMis cons new).getD (s + window) 0 -
        (prefMis cons new).getD s 0 : ℕ) : ℚ) /
      (((prefComp cons new).getD (s + window) 0 -
        (prefComp cons new).getD s 0 : ℕ) : ℚ)
  else 0

/-- One window test of `_detect_inversion_block`: skip when fewer than
half the window is comparable, report `(s, e-1)` when the ratio reaches
the adaptive threshold. -/
def windowQualifies (cons new : List Char) (window : ℕ) (thr : ℚ) (s : ℕ) :
    Option (ℕ × ℕ) :=
  if (((prefComp cons new).getD (s + window) 0 -
      (prefComp cons new).getD s 0 : ℕ) : ℚ) < (window : ℚ) * (1/2) then none
  else if localThr cons new thr ≤ windowRatio cons new window s then
    some (s, s + window - 1)
  else none

/-- The qualifying windows, in sampling order. -/
def bad_windows (cons new : List Char) (window : ℕ) (thr : ℚ) :
    List (ℕ × ℕ) :=
  (windowStarts new.length window (detectStep window)).filterMap
    (windowQualifies cons new window thr)

/-- Lexicographic comparison used to model Python's tuple `sort()`. -/
def lexLe (a b : ℕ × ℕ) : Bool :=
  decide (a.1 < b.1) || (decide (a.1 = b.1) && decide (a.2 ≤ b.2))

/-- The window-merging loop: extend the current block when the next
window starts within one step of its end, otherwise emit it. -/
def mergeGo (step : ℕ) : (ℕ × ℕ) → List (ℕ × ℕ) → List (ℕ × ℕ)
  | cur, [] => [cur]
  | cur, (s, e) :: rest =>
    if s ≤ cur.2 + step then mergeGo step (cur.1, max cur.2 e) rest
    else cur :: mergeGo step (s, e) rest

/-- Merge sorted qualifying windows into blocks. -/
def mergedWindows (step : ℕ) : List (ℕ × ℕ) → List (ℕ × ℕ)
  | [] => []
  | w :: ws => mergeGo step w ws

/-- Among merged blocks, the one with the most comparable positions,
provided it has at least `min_span` of them (`best_comp` starts at -1 and
only strictly larger comparable counts replace it). -/
def bestMergedBlock (prefC : List ℕ) (minSpan : ℕ) (ms : List (ℕ × ℕ)) :
    Option (ℕ × ℕ) :=
  (ms.foldl (fun acc se =>
    if minSpan ≤ prefC.getD (se.2 + 1) 0 - prefC.getD se.1 0 ∧
        acc.2 < ((prefC.getD (se.2 + 1) 0 - prefC.getD se.1 0 : ℕ) : ℤ) then
      (some se, ((prefC.getD (se.2 + 1) 0 - prefC.getD se.1 0 : ℕ) : ℤ))
    else acc)
    ((none : Option (ℕ × ℕ)), (-1 : ℤ))).1

/-- The Kadane score array: +1 for a comparable mismatch, −1 for a
comparable match, 0 for a non-comparable column. -/
def detectScore (cons new : List Char) : List ℤ :=
  List.zipWith (fun c m => if c ≠ 0 then (if m ≠ 0 then (1 : ℤ) else -1) else 0)
    (detectComp cons new) (detectMis cons new)

/-- State of the running-sum maximum-subarray loop of
`_detect_inversion_block` (`max_sum`, `cur_sum`, `best_s`, `best_e`,
`temp_s`; the best indices start at −1). -/
structure KadState where
  max_sum : ℤ
  cur_sum : ℤ
  best_s : ℤ
  best_e : ℤ
  temp_s : ℕ
deriving DecidableEq

/-- One iteration of the maximum-subarray loop at `(i, val)`. -/
def kadaneStep (st : KadState) (iv : ℕ × ℤ) : KadState :=
  if st.cur_sum + iv.2 ≤ 0 then
    { st with cur_sum := 0, temp_s := iv.1 + 1 }
  else if st.max_sum < st.cur_sum + iv.2 then
    { max_sum := st.cur_sum + iv.2, cur_sum := st.cur_sum + iv.2,
      best_s := (st.temp_s : ℤ), best_e := (iv.1 : ℤ), temp_s := st.temp_s }
  else { st with cur_sum := st.cur_sum + iv.2 }

/-- The full maximum-subarray scan over `enumerate(score)`. -/
def kadaneRun (score : List ℤ) : KadState :=
  score.enum.foldl kadaneStep ⟨0, 0, -1, -1, 0⟩

/-- Stage 1 of `_detect_inversion_block`: when some window qualifies,
sort (Python's `bad_windows.sort()`, the identity on the ascending
sampling order), merge, and pick the block with the most comparable
positions meeting `min_span`. -/
def detectStage1 (cons new : List Char) (window : ℕ) (thr : ℚ)
    (minSpan : ℕ) : Option (ℕ × ℕ) :=
  if bad_windows cons new window thr ≠ [] then
    bestMergedBlock (prefComp cons new) minSpan
      (mergedWindows (detectStep window)
        ((bad_windows cons new window thr).mergeSort lexLe))
  else none

/-- Stage 2 of `_detect_inversion_block` (the maximum-subarray fallback):
accept only a positive best sum whose block holds at least
`max(min_span, 8000)` comparable positions. -/
def detectStage2 (cons new : List Char) (minSpan : ℕ) : Option (ℕ × ℕ) :=
  if 0 < (kadaneRun (detectScore cons new)).max_sum ∧
      0 ≤ (kadaneRun (detectScore cons new)).best_s then
    if max minSpan 8000 ≤
        (prefComp cons new).getD
          ((kadaneRun (detectScore cons new)).best_e.toNat + 1) 0 -
        (prefComp cons new).getD
          ((kadaneRun (detectScore cons new)).best_s.toNat) 0 then
      some ((kadaneRun (detectScore cons new)).best_s.toNat,
        (kadaneRun (detectScore cons new)).best_e.toNat)
    else none
  else none

/-- `_detect_inversion_block(consensus_aln, new_aln, window, thr,
min_span)` (alineador.py): degenerate input gives none; otherwise the
window stage, falling back to the maximum-subarray stage. -/
def detect_inversion_block (cons new : List Char) (window : ℕ) (thr : ℚ)
    (minSpan : ℕ) : Option (ℕ × ℕ) :=
  if cons.length ≠ new.length ∨ new.length = 0 then none
  else
    match detectStage1 cons new window thr minSpan with
    | some blk => some blk
    | none => detectStage2 cons new minSpan

/-- Loop invariant of the maximum-subarray scan after processing the
first `n` columns: `cur_sum` is the score sum since `temp_s`, the sums
are nonnegative, and the best block (when set) is a genuine segment whose
score sum equals `max_sum > 0`. -/
def KadInv (score : List ℤ) (n : ℕ) (st : KadState) : Prop :=
  st.temp_s ≤ n ∧
  st.cur_sum = ((score.drop st.temp_s).take (n - st.temp_s)).sum ∧
  0 ≤ st.cur_sum ∧
  0 ≤ st.max_sum ∧
  ((st.best_s = -1 ∧ st.best_e = -1 ∧ st.max_sum = 0) ∨
   (∃ bs be : ℕ, st.best_s = (bs : ℤ) ∧ st.best_e = (be : ℤ) ∧ bs ≤ be ∧
     be < n ∧ 0 < st.max_sum ∧
     st.max_sum = ((score.drop bs).take (be + 1 - bs)).sum))

/-- Closed form of the maximum-subarray state after `k` full periods of
the score pattern `[1, 1, -1]`. -/
def kadS (k : ℕ) : KadState :=
  ⟨(k : ℤ) + 1, (k : ℤ), 0, 3 * (k : ℤ) - 2, 0⟩

/-- C6 counterexample consensus row: 8004 columns of 'A'. -/
def detectCexCons : List Char := List.replicate 8004 'A'

/-- C6 counterexample newest row: 2668 repetitions of "CCA", so every
third column matches and the rest mismatch. -/
def detectCexNew : List Char := (List.replicate 2668 ['C', 'C', 'A']).flatten

lemma apply_mutations_cons (seq : List Char) (pb : ℕ × Char) (rest : List (ℕ × Char)) :
    apply_mutations seq (pb :: rest) =
      apply_mutations
        (if 1 ≤ pb.1 ∧ pb.1 - 1 < seq.length then seq.set (pb.1 - 1) pb.2 else seq)
        rest := rfl

lemma apply_mutations_length (seq : List Char) (muts : List (ℕ × Char)) :
    (apply_mutations seq muts).length = seq.length := by
  induction muts generalizing seq with
  | nil => rfl
  | cons pb rest ih =>
      rw [apply_mutations_cons]
      by_cases h : 1 ≤ pb.1 ∧ pb.1 - 1 < seq.length
      · rw [if_pos h, ih, List.length_set]
      · rw [if_neg h, ih]

lemma apply_mutations_unmapped (seq : List Char) (muts : List (ℕ × Char))
    (k : ℕ) (hk : ∀ b : Char, (k + 1, b) ∉ muts) :
    (apply_mutations seq muts)[k]? = seq[k]? := by
  induction muts generalizing seq with
  | nil => rfl
  | cons pb rest ih =>
      rw [apply_mutations_cons]
      have hrest : ∀ b : Char, (k + 1, b) ∉ rest := by
        intro b hb
        exact hk b (List.mem_cons_of_mem _ hb)
      by_cases h : 1 ≤ pb.1 ∧ pb.1 - 1 < seq.length
      · rw [if_pos h, ih _ hrest]
        apply List.getElem?_set_ne
        intro hEq
        have hk1 : pb.1 = k + 1 := by omega
        exact hk pb.2 (by rw [← hk1]; exact List.mem_cons_self _ _)
      · rw [if_neg h, ih _ hrest]

lemma apply_mutations_mapped (seq : List Char) (muts : List (ℕ × Char))
    (hnd : (muts.map Prod.fst).Nodup)
    (pos : ℕ) (b : Char) (hmem : (pos, b) ∈ muts)
    (h1 : 1 ≤ pos) (h2 : pos ≤ seq.length) :
    (apply_mutations seq muts)[pos - 1]? = some b := by
  induction muts generalizing seq with
  | nil => cases hmem
  | cons pb rest ih =>
      rw [apply_mutations_cons]
      rcases List.mem_cons.mp hmem with hEq | hmemRest
      · subst hEq
        rw [if_pos ⟨h1, by omega⟩]
        have hnot : ∀ c : Char, ((pos - 1) + 1, c) ∉ rest := by
          intro c hc
          have hmem' : pos ∈ rest.map Prod.fst := by
            have hp : (pos - 1) + 1 = pos := by omega
            rw [hp] at hc
            exact List.mem_map_of_mem Prod.fst hc
          exact (List.nodup_cons.mp hnd).1 hmem'
        rw [apply_mutations_unmapped _ _ _ hnot]
        exact List.getElem?_set_self (by omega)
      · have hnd' := (List.nodup_cons.mp hnd).2
        by_cases h : 1 ≤ pb.1 ∧ pb.1 - 1 < seq.length
        · rw [if_pos h]
          exact ih _ hnd' hmemRest (by rw [List.length_set]; exact h2)
        · rw [if_neg h]
          exact ih _ hnd' hmemRest h2

/-- Claim C5: `apply_mutations` returns a sequence of the same length as
the input; every mapped position inside `[1, len seq]` has its base
replaced by the mapped base (positions outside the bounds are silently
ignored, they affect nothing), and every unmapped position is
unchanged. -/
theorem apply_mutations_correct (seq : List Char) (muts : List (ℕ × Char)) :
    (apply_mutations seq muts).length = seq.length ∧
    ((muts.map Prod.fst).Nodup →
      ∀ pos b, (pos, b) ∈ muts → 1 ≤ pos → pos ≤ seq.length →
        (apply_mutations seq muts)[pos - 1]? = some b) ∧
    (∀ k : ℕ, (∀ b : Char, (k + 1, b) ∉ muts) →
      (apply_mutations seq muts)[k]? = seq[k]?) := by
  refine ⟨apply_mutations_length seq muts, ?_, ?_⟩
  · intro hnd pos b hmem h1 h2
    exact apply_mutations_mapped seq muts hnd pos b hmem h1 h2
  · intro k hk
    exact apply_mutations_unmapped seq muts k hk

/-- Witness for C5 at a concrete input: sequence "ACGT" with mutations
{2 ↦ 'T', 7 ↦ 'A'} (position 7 is out of range and ignored). -/
theorem apply_mutations_correct_witness :
    (apply_mutations ['A','C','G','T'] [(2, 'T'), (7, 'A')])[1]? = some 'T' ∧
    (apply_mutations ['A','C','G','T'] [(2, 'T'), (7, 'A')])[0]? = some 'A' := by
  refine ⟨?_, ?_⟩
  · exact (apply_mutations_correct ['A','C','G','T'] [(2, 'T'), (7, 'A')]).2.1
      (by decide) 2 'T' (by decide) (by decide) (by decide)
  · have h := (apply_mutations_correct ['A','C','G','T'] [(2, 'T'), (7, 'A')]).2.2
      0 (by intro b hb; simp at hb)
    rw [h]; rfl

lemma take_append3 (a m c : List Char) (n : ℕ) (h : a.length = n) :
    (a ++ (m ++ c)).take n = a :=
  List.take_left' h

lemma drop_append3 (a m c : List Char) (n j : ℕ)
    (ha : a.length = n) (hm : m.length = j - n) (hnj : n ≤ j) :
    (a ++ (m ++ c)).drop j = c := by
  have hsplit : (a ++ (m ++ c)).drop j = ((a ++ (m ++ c)).drop n).drop (j - n) := by
    rw [List.drop_drop]
    congr 1
    omega
  rw [hsplit, List.drop_left' ha, List.drop_left' hm]

lemma mid_append3 (a m c : List Char) (n k : ℕ)
    (ha : a.length = n) (hm : m.length = k) :
    ((a ++ (m ++ c)).drop n).take k = m := by
  rw [List.drop_left' ha, List.take_left' hm]

/-- Claim C10: for a DNA sequence and cut points `1 ≤ start ≤ end ≤ len s`,
the segment flip keeps the length, keeps every position before `start` and
after `end`, and replaces positions `start..end` by the reverse complement
of that segment. -/
theorem flip_segment_frame (s : List Char) (st en : ℕ)
    (_halpha : ∀ c ∈ s, isDnaN c)
    (h1 : 1 ≤ st) (h2 : st ≤ en) (h3 : en ≤ s.length) :
    (flip_segment s st en).length = s.length ∧
    (flip_segment s st en).take (st - 1) = s.take (st - 1) ∧
    (flip_segment s st en).drop en = s.drop en ∧
    ((flip_segment s st en).drop (st - 1)).take (en - (st - 1)) =
      revcomp ((s.drop (st - 1)).take (en - (st - 1))) := by
  have ha : (s.take (st - 1)).length = st - 1 := by
    rw [List.length_take]; omega
  have hm : (revcomp ((s.drop (st - 1)).take (en - (st - 1)))).length
      = en - (st - 1) := by
    unfold revcomp
    rw [List.length_reverse, List.length_map, List.length_take, List.length_drop]
    omega
  have hflip : flip_segment s st en
      = s.take (st - 1)
        ++ (revcomp ((s.drop (st - 1)).take (en - (st - 1))) ++ s.drop en) := by
    unfold flip_segment
    rw [List.append_assoc]
  refine ⟨?_, ?_, ?_, ?_⟩
  · rw [hflip, List.length_append, List.length_append, ha, hm, List.length_drop]
    omega
  · rw [hflip, take_append3 _ _ _ _ ha]
  · rw [hflip, drop_append3 _ _ _ _ _ ha (by rw [hm]) (by omega)]
  · rw [hflip, mid_append3 _ _ _ _ _ ha hm]

/-- Witness for C10 at a concrete input: s = "ACGTN", start = 2, end = 4. -/
theorem flip_segment_frame_witness :
    (flip_segment ['A','C','G','T','N'] 2 4).length = 5 ∧
    (flip_segment ['A','C','G','T','N'] 2 4) = ['A','A','C','G','N'] := by
  have h := flip_segment_frame ['A','C','G','T','N'] 2 4
    (by decide) (by decide) (by decide) (by decide)
  refine ⟨?_, by decide⟩
  rw [h.1]
  rfl

lemma argmax_base_spec (a c g t : ℕ) :
    (argmax_base a c g t = 'A' ∧ a ≥ c ∧ a ≥ g ∧ a ≥ t) ∨
    (argmax_base a c g t = 'C' ∧ c > a ∧ c ≥ g ∧ c ≥ t) ∨
    (argmax_base a c g t = 'G' ∧ g > a ∧ g > c ∧ g ≥ t) ∨
    (argmax_base a c g t = 'T' ∧ t > a ∧ t > c ∧ t > g) := by
  unfold argmax_base
  simp only [List.foldl]
  split_ifs <;> simp_all <;> omega

/-- Claim C2: for a tally row with positive total, a mutation is recorded
iff the reference counts are zero or the reference fraction is below one
half; the recorded base is the argmax of (A,C,G,T) with ties broken in the
order A > C > G > T; no mutation is recorded when the reference fraction is
at least one half. -/
theorem load_mutations_row (dot comma a c g t : ℕ)
    (h : 0 < dot + comma + a + c + g + t) :
    ((mutation_of_row dot comma a c g t).isSome ↔
      (dot + comma = 0 ∨
        ((dot + comma : ℚ) / ((dot + comma + a + c + g + t : ℕ) : ℚ) < 1/2))) ∧
    (∀ b, mutation_of_row dot comma a c g t = some b →
      ((b = 'A' ∧ a ≥ c ∧ a ≥ g ∧ a ≥ t) ∨
       (b = 'C' ∧ c > a ∧ c ≥ g ∧ c ≥ t) ∨
       (b = 'G' ∧ g > a ∧ g > c ∧ g ≥ t) ∨
       (b = 'T' ∧ t > a ∧ t > c ∧ t > g))) ∧
    (((dot + comma : ℚ) / ((dot + comma + a + c + g + t : ℕ) : ℚ) ≥ 1/2) →
      mutation_of_row dot comma a c g t = none) := by
  have htot : (dot + comma + a + c + g + t : ℕ) ≠ 0 := by omega
  have hpos : (0 : ℚ) < ((dot + comma + a + c + g + t : ℕ) : ℚ) := by
    exact_mod_cast Nat.pos_of_ne_zero htot
  refine ⟨?_, ?_, ?_⟩
  · unfold mutation_of_row
    rw [if_neg htot]
    by_cases hc : dot + comma = 0 ∨
        ((dot + comma : ℚ) / ((dot + comma + a + c + g + t : ℕ) : ℚ) < 1/2)
    · rw [if_pos hc]
      simpa using hc
    · rw [if_neg hc]
      simpa using hc
  · intro b hb
    unfold mutation_of_row at hb
    rw [if_neg htot] at hb
    by_cases hc : dot + comma = 0 ∨
        ((dot + comma : ℚ) / ((dot + comma + a + c + g + t : ℕ) : ℚ) < 1/2)
    · rw [if_pos hc] at hb
      have hb' : b = argmax_base a c g t := (Option.some.inj hb).symm
      rw [hb']
      have := argmax_base_spec a c g t
      tauto
    · rw [if_neg hc] at hb
      cases hb
  · intro hge
    unfold mutation_of_row
    rw [if_neg htot, if_neg]
    push_neg
    refine ⟨?_, by linarith⟩
    intro h0
    have hd : dot = 0 := by omega
    have hcm : comma = 0 := by omega
    rw [hd, hcm] at hge
    norm_num at hge

/-- Witness for C2 at a concrete row: dot=1, comma=0, G=5 (total 6,
reference fraction 1/6 < 1/2, argmax is G). -/
theorem load_mutations_row_witness :
    mutation_of_row 1 0 0 0 5 0 = some 'G' := by
  have h := load_mutations_row 1 0 0 0 5 0 (by norm_num)
  have hs : (mutation_of_row 1 0 0 0 5 0).isSome := by
    apply h.1.mpr
    right
    norm_num
  obtain ⟨b, hb⟩ := Option.isSome_iff_exists.mp hs
  have hd := h.2.1 b hb
  rcases hd with ⟨hbEq, _, hc, _⟩ | ⟨hbEq, hc, _, _⟩ | ⟨hbEq, _, _, _⟩ |
    ⟨hbEq, _, _, hc⟩
  · omega
  · omega
  · rw [hb, hbEq]
  · omega

lemma toUpper_of_unambiguous {c : Char} (h : isUnambiguousBase c) :
    c.toUpper ∈ (['A', 'C', 'G', 'T'] : List Char) := by
  rcases h with h | h | h | h | h | h | h | h <;> subst h <;> decide

lemma kmerset_self_nonempty (s : List Char) (k : ℕ)
    (halpha : ∀ c ∈ s, isUnambiguousBase c) (hk : k ≤ s.length) :
    ((s.map Char.toUpper).take k) ∈ kmerset (s.map Char.toUpper) k := by
  unfold kmerset
  rw [List.mem_toFinset, List.mem_filter]
  constructor
  · rw [List.mem_map]
    refine ⟨0, ?_, by rw [List.drop_zero]⟩
    rw [List.mem_range, List.length_map]
    omega
  · unfold kmerOk
    have hmem : ∀ c ∈ (s.map Char.toUpper).take k,
        c ∈ (['A', 'C', 'G', 'T'] : List Char) := by
      intro c hc
      have hc' : c ∈ s.map Char.toUpper := List.mem_of_mem_take hc
      rw [List.mem_map] at hc'
      obtain ⟨d, hd, rfl⟩ := hc'
      exact toUpper_of_unambiguous (halpha d hd)
    rw [Bool.and_eq_true]
    constructor
    · rw [Bool.not_eq_true']
      rw [← Bool.not_eq_true]
      intro hcontra
      rw [List.contains_eq_any_beq, List.any_eq_true] at hcontra
      obtain ⟨c, hc, hcbeq⟩ := hcontra
      have hcn : 'N' = c := of_decide_eq_true hcbeq
      rw [← hcn] at hc
      have := hmem 'N' hc
      simp at this
    · rw [List.all_eq_true]
      intro c hc
      rw [List.contains_eq_any_beq, List.any_eq_true]
      have := hmem c hc
      refine ⟨c, this, by simp⟩

/-- Claim C9: the k-mer Jaccard similarity always lies in [0,1], and the
similarity of a gap-free, `N`-free sequence (all characters unambiguous
bases) of length at least `k` against itself is 1. -/
theorem kmer_jaccard_range_self (s1 s2 : List Char) (k : ℕ) :
    (0 ≤ kmer_jaccard s1 s2 k ∧ kmer_jaccard s1 s2 k ≤ 1) ∧
    (s1 = s2 → (∀ c ∈ s1, isUnambiguousBase c) → k ≤ s1.length →
      kmer_jaccard s1 s2 k = 1) := by
  constructor
  · unfold kmer_jaccard
    by_cases h1 : (s1.map Char.toUpper).length < k ∨ (s2.map Char.toUpper).length < k
    · rw [if_pos h1]
      norm_num
    · rw [if_neg h1]
      by_cases h2 : kmerset (s1.map Char.toUpper) k = ∅ ∧
          kmerset (s2.map Char.toUpper) k = ∅
      · rw [if_pos h2]
        norm_num
      · rw [if_neg h2]
        by_cases h3 : (kmerset (s1.map Char.toUpper) k ∪
            kmerset (s2.map Char.toUpper) k).card = 0
        · rw [if_pos h3]
          norm_num
        · rw [if_neg h3]
          have hpos : (0 : ℚ) < ((kmerset (s1.map Char.toUpper) k ∪
              kmerset (s2.map Char.toUpper) k).card : ℚ) := by
            exact_mod_cast Nat.pos_of_ne_zero h3
          constructor
          · positivity
          · rw [div_le_one hpos]
            exact_mod_cast Finset.card_le_card Finset.inter_subset_union
  · intro hEq halpha hk
    subst hEq
    unfold kmer_jaccard
    have hlen : (s1.map Char.toUpper).length = s1.length := List.length_map _ _
    rw [if_neg (by rw [hlen]; omega)]
    have hne : kmerset (s1.map Char.toUpper) k ≠ ∅ := by
      intro hcontra
      have := kmerset_self_nonempty s1 k halpha hk
      rw [hcontra] at this
      exact absurd this (Finset.not_mem_empty _)
    rw [if_neg (by intro h; exact hne h.1)]
    rw [Finset.inter_self, Finset.union_self]
    have hcard : (kmerset (s1.map Char.toUpper) k).card ≠ 0 := by
      intro h
      exact hne (Finset.card_eq_zero.mp h)
    rw [if_neg hcard]
    rw [div_self]
    exact_mod_cast hcard

/-- Witness for C9: the self-similarity of "ACG" with k = 2 is 1, and it
lies in [0,1]. -/
theorem kmer_jaccard_range_self_witness :
    kmer_jaccard ['A','C','G'] ['A','C','G'] 2 = 1 ∧
    0 ≤ kmer_jaccard ['A','C','G'] ['A','C','G'] 2 := by
  have h := kmer_jaccard_range_self ['A','C','G'] ['A','C','G'] 2
  exact ⟨h.2 rfl (by decide) (by decide), h.1.1⟩

lemma consensus_base_spec (cA cC cG cT : ℕ) :
    (consensus_base cA cC cG cT = 'N' ↔ (cA = 0 ∧ cC = 0 ∧ cG = 0 ∧ cT = 0)) ∧
    (¬(cA = 0 ∧ cC = 0 ∧ cG = 0 ∧ cT = 0) →
      (consensus_base cA cC cG cT = 'A' ∧ cA ≥ cC ∧ cA ≥ cG ∧ cA ≥ cT) ∨
      (consensus_base cA cC cG cT = 'C' ∧ cC > cA ∧ cC ≥ cG ∧ cC ≥ cT) ∨
      (consensus_base cA cC cG cT = 'G' ∧ cG > cA ∧ cG > cC ∧ cG ≥ cT) ∨
      (consensus_base cA cC cG cT = 'T' ∧ cT > cA ∧ cT > cC ∧ cT > cG)) := by
  unfold consensus_base best_base_fold
  simp only [List.foldl]
  split_ifs <;> simp_all <;> omega

/-- Claim C8: for a non-empty list of aligned rows, the consensus builder
fails (raises, modelled as `none`) exactly when two rows have different
lengths; otherwise it returns a string as long as the alignment whose
column `i` is `'N'` precisely when no row has an unambiguous base
(A/C/G/T, case-insensitive) there, and otherwise is a base of maximal
count at that column. -/
theorem consensus_from_entries_correct (s0 : List Char) (rest : List (List Char)) :
    ((∃ s ∈ s0 :: rest, ∃ t ∈ s0 :: rest, s.length ≠ t.length) →
      consensus_from_entries (s0 :: rest) = none) ∧
    ((∀ s ∈ s0 :: rest, ∀ t ∈ s0 :: rest, s.length = t.length) →
      ∃ c, consensus_from_entries (s0 :: rest) = some c ∧
        c.length = s0.length ∧
        ∀ i, i < s0.length →
          ∃ base, (c)[i]? = some base ∧
            (base = 'N' ↔ ∀ s ∈ s0 :: rest, ∀ b ∈ (['A','C','G','T'] : List Char),
              ¬ ((s)[i]?.map Char.toUpper = some b)) ∧
            (base ≠ 'N' → base ∈ (['A','C','G','T'] : List Char) ∧
              ∀ b ∈ (['A','C','G','T'] : List Char),
                countBase (s0 :: rest) i b ≤ countBase (s0 :: rest) i base)) := by
  constructor
  · rintro ⟨s, hs, t, ht, hne⟩
    simp only [consensus_from_entries]
    rw [if_neg]
    intro hcond
    exact hne ((hcond s hs).trans (hcond t ht).symm)
  · intro hall
    have hcond : ∀ s ∈ s0 :: rest, s.length = s0.length := fun s hs =>
      hall s hs s0 (List.mem_cons_self _ _)
    simp only [consensus_from_entries]
    rw [if_pos hcond]
    refine ⟨_, rfl, (by rw [List.length_map, List.length_range]), ?_⟩
    intro i hi
    refine ⟨consensus_base
      (countBase (s0 :: rest) i 'A') (countBase (s0 :: rest) i 'C')
      (countBase (s0 :: rest) i 'G') (countBase (s0 :: rest) i 'T'), ?_, ?_, ?_⟩
    · rw [List.getElem?_map, List.getElem?_range hi]
      rfl
    · rw [(consensus_base_spec _ _ _ _).1]
      constructor
      · rintro ⟨hA, hC, hG, hT⟩ s hs b hb
        intro hEq
        fin_cases hb
        · exact absurd hEq (by
            have := List.countP_eq_zero.mp hA s hs
            simpa using this)
        · exact absurd hEq (by
            have := List.countP_eq_zero.mp hC s hs
            simpa using this)
        · exact absurd hEq (by
            have := List.countP_eq_zero.mp hG s hs
            simpa using this)
        · exact absurd hEq (by
            have := List.countP_eq_zero.mp hT s hs
            simpa using this)
      · intro hno
        refine ⟨?_, ?_, ?_, ?_⟩ <;>
          · apply List.countP_eq_zero.mpr
            intro s hs
            simpa using hno s hs _ (by simp)
    · intro hnN
      have hnz : ¬(countBase (s0 :: rest) i 'A' = 0 ∧ countBase (s0 :: rest) i 'C' = 0 ∧
          countBase (s0 :: rest) i 'G' = 0 ∧ countBase (s0 :: rest) i 'T' = 0) := by
        intro hz
        exact hnN ((consensus_base_spec _ _ _ _).1.mpr hz)
      rcases (consensus_base_spec _ _ _ _).2 hnz with
        ⟨hEq, h1, h2, h3⟩ | ⟨hEq, h1, h2, h3⟩ | ⟨hEq, h1, h2, h3⟩ | ⟨hEq, h1, h2, h3⟩ <;>
        rw [hEq] <;>
        exact ⟨by decide, by intro b hb; fin_cases hb <;> omega⟩

/-- Witness for C8 at a concrete input: rows ["AC","aG","-C"] (equal
lengths) and rows ["AC","A"] (length mismatch). -/
theorem consensus_from_entries_correct_witness :
    consensus_from_entries [['A','C'], ['A']] = none ∧
    ∃ c, consensus_from_entries [['A','C'], ['a','G'], ['-','C']] = some c ∧
      c.length = 2 := by
  constructor
  · exact (consensus_from_entries_correct ['A','C'] [['A']]).1
      ⟨['A','C'], by simp, ['A'], by simp, by simp⟩
  · obtain ⟨c, hc, hlen, _⟩ :=
      (consensus_from_entries_correct ['A','C'] [['a','G'], ['-','C']]).2
      (by decide)
    exact ⟨c, hc, hlen⟩

lemma assess_counts_step (prev : List (List Char)) (ic : ℕ × Char) (mc : ℕ × ℕ) :
    (match colConsensus prev ic.1 with
      | none => mc
      | some cons =>
        let q := ic.2.toUpper
        if q = '-' ∨ q = '.' ∨ q = 'N' then mc
        else (mc.1 + (if q = cons then 1 else 0), mc.2 + 1)) =
      (mc.1 + (if isMatchCol prev ic then 1 else 0),
       mc.2 + (if isConsideredCol prev ic then 1 else 0)) := by
  rcases h : colConsensus prev ic.1 with _ | cons
  · simp [isMatchCol, isConsideredCol, h]
  · by_cases hq : ic.2.toUpper = '-' ∨ ic.2.toUpper = '.' ∨ ic.2.toUpper = 'N'
    · have hC : isConsideredCol prev ic = false := by
        unfold isConsideredCol
        rcases hq with h1 | h1 | h1 <;> rw [h1] <;> simp
      have hM : isMatchCol prev ic = false := by
        unfold isMatchCol
        rw [hC]
        rfl
      simp only [h, if_pos hq, hC, hM, Bool.false_eq_true, ite_false]
      simp
    · have hC : isConsideredCol prev ic = true := by
        unfold isConsideredCol
        push_neg at hq
        simp [h, hq.1, hq.2.1, hq.2.2]
      by_cases hm : ic.2.toUpper = cons
      · have hM : isMatchCol prev ic = true := by
          unfold isMatchCol
          rw [hC, h, hm]
          simp
        simp only [h, if_neg hq, hC, hM, ite_true, if_pos hm]
      · have hM : isMatchCol prev ic = false := by
          unfold isMatchCol
          rw [hC, h]
          simp only [Bool.true_and, beq_eq_false_iff_ne, ne_eq]
          intro hEq
          exact hm (Option.some.inj hEq).symm
        simp only [h, if_neg hq, hC, hM, Bool.false_eq_true, ite_false,
          ite_true, if_neg hm]

lemma assess_counts_go (prev : List (List Char)) (l : List (ℕ × Char)) (m c : ℕ) :
    l.foldl (fun mc ic =>
      match colConsensus prev ic.1 with
      | none => mc
      | some cons =>
        let q := ic.2.toUpper
        if q = '-' ∨ q = '.' ∨ q = 'N' then mc
        else (mc.1 + (if q = cons then 1 else 0), mc.2 + 1)) (m, c) =
      (m + (l.filter (isMatchCol prev)).length,
       c + (l.filter (isConsideredCol prev)).length) := by
  induction l generalizing m c with
  | nil => simp
  | cons ic rest ih =>
      rw [List.foldl_cons, assess_counts_step prev ic (m, c), ih,
        List.filter_cons, List.filter_cons]
      by_cases hM : isMatchCol prev ic = true
      · have hC : isConsideredCol prev ic = true := by
          have hM2 := hM
          unfold isMatchCol at hM2
          rw [Bool.and_eq_true] at hM2
          exact hM2.1
        simp only [hM, hC, ite_true, List.length_cons, Prod.mk.injEq]
        exact ⟨by omega, by omega⟩
      · have hM2 : isMatchCol prev ic = false := eq_false_of_ne_true hM
        by_cases hC : isConsideredCol prev ic = true
        · simp only [hM2, hC, ite_true, Bool.false_eq_true, ite_false,
            List.length_cons, Prod.mk.injEq]
          exact ⟨by omega, by omega⟩
        · have hC2 : isConsideredCol prev ic = false := eq_false_of_ne_true hC
          simp only [hM2, hC2, Bool.false_eq_true, ite_false, Prod.mk.injEq]
          exact ⟨by omega, by omega⟩

lemma assess_counts_eq (prev : List (List Char)) (newSeq : List Char) :
    assess_counts prev newSeq =
      (matchCount prev newSeq, consideredCount prev newSeq) := by
  unfold assess_counts matchCount consideredCount
  rw [assess_counts_go]
  simp

lemma assess_quality_characterization (entries : List (List Char)) (minId : ℚ) :
    ((assess_alignment_quality entries minId).2.2.1 = 0 →
      (assess_alignment_quality entries minId).1 = false ∧
      (assess_alignment_quality entries minId).2.1 = 0) ∧
    (∀ newSeq, entries.getLast? = some newSeq → 2 ≤ entries.length →
      newSeq.length ≠ 0 → (∀ s ∈ entries.dropLast, s.length = newSeq.length) →
      (assess_alignment_quality entries minId).2.2.1 =
        consideredCount entries.dropLast newSeq ∧
      (0 < consideredCount entries.dropLast newSeq →
        (assess_alignment_quality entries minId).2.1 =
          (matchCount entries.dropLast newSeq : ℚ) /
            (consideredCount entries.dropLast newSeq : ℚ) ∧
        ((assess_alignment_quality entries minId).1 = true ↔
          minId ≤ (matchCount entries.dropLast newSeq : ℚ) /
            (consideredCount entries.dropLast newSeq : ℚ)))) := by
  by_cases h2 : entries.length < 2
  · have heq : assess_alignment_quality entries minId = (false, 0, 0, 0) := by
      unfold assess_alignment_quality
      rw [if_pos h2]
    rw [heq]
    exact ⟨fun _ => ⟨rfl, rfl⟩, fun n _ hn _ _ => absurd hn (by omega)⟩
  · rcases hlast : entries.getLast? with _ | newSeq
    · have heq : assess_alignment_quality entries minId = (false, 0, 0, 0) := by
        unfold assess_alignment_quality
        rw [if_neg h2, hlast]
      rw [heq]
      refine ⟨fun _ => ⟨rfl, rfl⟩, ?_⟩
      intro n hn
      exact absurd hn (by simp)
    · have heq0 : assess_alignment_quality entries minId =
          (if newSeq.length = 0 ∨ ∃ s ∈ entries.dropLast, s.length ≠ newSeq.length then
            (false, 0, 0, newSeq.length)
          else if (assess_counts entries.dropLast newSeq).2 = 0 then
            (false, 0, 0, newSeq.length)
          else
            (decide (minId ≤
                ((assess_counts entries.dropLast newSeq).1 : ℚ) /
                  ((assess_counts entries.dropLast newSeq).2 : ℚ)),
             ((assess_counts entries.dropLast newSeq).1 : ℚ) /
               ((assess_counts entries.dropLast newSeq).2 : ℚ),
             (assess_counts entries.dropLast newSeq).2, newSeq.length)) := by
        unfold assess_alignment_quality
        rw [if_neg h2, hlast]
      by_cases hbad : newSeq.length = 0 ∨ ∃ s ∈ entries.dropLast, s.length ≠ newSeq.length
      · rw [heq0, if_pos hbad]
        refine ⟨fun _ => ⟨rfl, rfl⟩, ?_⟩
        intro n hn _ hL hall
        have hn2 : newSeq = n := Option.some.inj hn
        subst hn2
        rcases hbad with h | ⟨s, hs, hneq⟩
        · exact absurd h hL
        · exact absurd (hall s hs) hneq
      · rw [heq0, if_neg hbad]
        constructor
        · intro h0
          by_cases hz : (assess_counts entries.dropLast newSeq).2 = 0
          · rw [if_pos hz] at h0 ⊢
            exact ⟨rfl, rfl⟩
          · rw [if_neg hz] at h0
            exact absurd h0 hz
        · intro n hn _ _ _
          have hn2 : newSeq = n := Option.some.inj hn
          subst hn2
          by_cases hz : (assess_counts entries.dropLast newSeq).2 = 0
          · rw [if_pos hz]
            have h3 : consideredCount entries.dropLast newSeq = 0 := by
              have h4 := hz
              rw [assess_counts_eq] at h4
              exact h4
            exact ⟨h3.symm, fun hpos => absurd h3 (by omega)⟩
          · rw [if_neg hz]
            refine ⟨?_, fun _ => ⟨?_, ?_⟩⟩
            · rw [assess_counts_eq]
            · rw [assess_counts_eq]
            · rw [assess_counts_eq]
              simp [decide_eq_true_eq]

/-- Counterexample to claim C1 as stated: for the alignment
prev = "AA", newest = "RA" and the default threshold 0.95, the claim's
counting rule considers only column 1 (the `R` is not an unambiguous
base), giving identity 1/1 = 1 ≥ 0.95, hence verdict accept; the code
also counts the `R` column as a considered mismatch, giving identity 1/2
and verdict reject. -/
theorem assess_alignment_quality_cex :
    (assess_alignment_quality [['A','A'], ['R','A']] (95/100)).1 = false ∧
    claimConsidered [['A','A']] ['R','A'] = 1 ∧
    claimMatches [['A','A']] ['R','A'] = 1 ∧
    ((95 : ℚ)/100 ≤ (claimMatches [['A','A']] ['R','A'] : ℚ) /
      (claimConsidered [['A','A']] ['R','A'] : ℚ)) := by
  have hcl : claimConsidered [['A','A']] ['R','A'] = 1 := by decide
  have hm : claimMatches [['A','A']] ['R','A'] = 1 := by decide
  refine ⟨?_, hcl, hm, ?_⟩
  · have hcc : consideredCount ([['A','A'], ['R','A']] :
        List (List Char)).dropLast ['R','A'] = 2 := by decide
    have hmc : matchCount ([['A','A'], ['R','A']] :
        List (List Char)).dropLast ['R','A'] = 1 := by decide
    have h := (assess_quality_characterization [['A','A'], ['R','A']] (95/100)).2
      ['R','A'] rfl (by norm_num) (by norm_num) (by decide)
    have h2 := (h.2 (by rw [hcc]; norm_num)).2
    rw [hcc, hmc] at h2
    rcases hb : (assess_alignment_quality [['A','A'], ['R','A']] (95/100)).1 with _ | _
    · rfl
    · rw [hb] at h2
      have h3 := h2.mp rfl
      norm_num at h3
  · rw [hcl, hm]
    norm_num

/-- Claim C1 (amended): the reported identity is matches/considered where
a column is considered when the prior rows give a consensus base and the
newest row character is neither a gap nor `N` (ambiguity codes such as
`R` are considered and counted as mismatches); whenever the reported
considered count is 0 the reported identity is 0.0 and the verdict is
reject; and on a well-formed alignment with considered > 0 the verdict is
accept if and only if identity ≥ the minimum-identity threshold. -/
theorem assess_alignment_quality_spec (entries : List (List Char)) (minId : ℚ) :
    ((assess_alignment_quality entries minId).2.2.1 = 0 →
      (assess_alignment_quality entries minId).1 = false ∧
      (assess_alignment_quality entries minId).2.1 = 0) ∧
    (∀ newSeq, entries.getLast? = some newSeq → 2 ≤ entries.length →
      newSeq.length ≠ 0 → (∀ s ∈ entries.dropLast, s.length = newSeq.length) →
      (assess_alignment_quality entries minId).2.2.1 =
        consideredCount entries.dropLast newSeq ∧
      (0 < consideredCount entries.dropLast newSeq →
        (assess_alignment_quality entries minId).2.1 =
          (matchCount entries.dropLast newSeq : ℚ) /
            (consideredCount entries.dropLast newSeq : ℚ) ∧
        ((assess_alignment_quality entries minId).1 = true ↔
          minId ≤ (matchCount entries.dropLast newSeq : ℚ) /
            (consideredCount entries.dropLast newSeq : ℚ)))) :=
  assess_quality_characterization entries minId

/-- Witness for the amended C1 at a concrete input: prev = "AA",
newest = "AN", threshold 1/2: column 0 matches, column 1 is skipped, so
identity is 1 and the alignment is accepted. -/
theorem assess_alignment_quality_spec_witness :
    (assess_alignment_quality [['A','A'], ['A','N']] (1/2)).1 = true := by
  have hcc : consideredCount ([['A','A'], ['A','N']] :
      List (List Char)).dropLast ['A','N'] = 1 := by decide
  have hmc : matchCount ([['A','A'], ['A','N']] :
      List (List Char)).dropLast ['A','N'] = 1 := by decide
  have h := (assess_alignment_quality_spec [['A','A'], ['A','N']] (1/2)).2
    ['A','N'] rfl (by norm_num) (by norm_num) (by decide)
  have h2 := (h.2 (by rw [hcc]; norm_num)).2
  rw [hcc, hmc] at h2
  apply h2.mpr
  norm_num

/-- Counterexample to claim C4 as stated: the deletion placeholder `*`
consumes one pileup symbol but is counted in no category, so the sum of
categories (0) differs from the symbols consumed (1). -/
theorem parse_pileup_line_cex :
    sumCounts (parse_pileup_bases ['*']).1 = 0 ∧
    (parse_pileup_bases ['*']).2 = 1 := by decide

lemma sumCounts_caret (p : PileupCounts) :
    sumCounts { p with caret := p.caret + 1 } = sumCounts p + 1 := by
  simp [sumCounts]
  omega

lemma sumCounts_dollar (p : PileupCounts) :
    sumCounts { p with dollar := p.dollar + 1 } = sumCounts p + 1 := by
  simp [sumCounts]
  omega

lemma sumCounts_dot (p : PileupCounts) :
    sumCounts { p with dot := p.dot + 1 } = sumCounts p + 1 := by
  simp [sumCounts]
  omega

lemma sumCounts_comma (p : PileupCounts) :
    sumCounts { p with comma := p.comma + 1 } = sumCounts p + 1 := by
  simp [sumCounts]
  omega

lemma sumCounts_other (p : PileupCounts) :
    sumCounts { p with other := p.other + 1 } = sumCounts p + 1 := by
  simp [sumCounts]
  omega

lemma sumCounts_bumpIndel (p : PileupCounts) (ch : Char) :
    sumCounts (bumpIndel p ch) = sumCounts p + 1 := by
  unfold bumpIndel
  by_cases h : ch = '+'
  · rw [if_pos h]
    simp [sumCounts]
    omega
  · rw [if_neg h]
    simp [sumCounts]
    omega

lemma sumCounts_bumpBase (p : PileupCounts) (cu : Char)
    (h : cu = 'A' ∨ cu = 'C' ∨ cu = 'G' ∨ cu = 'T' ∨ cu = 'N') :
    sumCounts (bumpBase p cu) = sumCounts p + 1 := by
  rcases h with h | h | h | h | h <;> subst h <;> simp [bumpBase, sumCounts] <;> omega

lemma star_not_mem_drop {l : List Char} {k : ℕ} (h : '*' ∉ l) : '*' ∉ l.drop k :=
  fun hm => h (List.drop_subset _ _ hm)

lemma iupac_none_drop {l : List Char} {k : ℕ}
    (h : ∀ c ∈ l, iupacComponents c.toUpper = []) :
    ∀ c ∈ l.drop k, iupacComponents c.toUpper = [] :=
  fun c hc => h c (List.drop_subset _ _ hc)

lemma indelOk_drop {l : List Char} {k : ℕ} (h : indelOk l) : indelOk (l.drop k) := by
  intro i hi hpm
  rw [List.getElem?_drop] at hpm
  rw [List.getElem?_drop]
  have hlen : k + i < l.length := by
    rw [List.length_drop] at hi
    omega
  have := h (k + i) hlen hpm
  have harith : k + (i + 1) = (k + i) + 1 := by omega
  rw [harith]
  exact this

lemma parse_pileup_go_sum (fuel : ℕ) :
    ∀ (bases : List Char) (counts : PileupCounts) (s : ℕ),
      bases.length ≤ fuel →
      '*' ∉ bases →
      (∀ c ∈ bases, iupacComponents c.toUpper = []) →
      indelOk bases →
      sumCounts (parse_pileup_go fuel bases counts s).1 + s =
        sumCounts counts + (parse_pileup_go fuel bases counts s).2 := by
  induction fuel with
  | zero =>
      intro bases counts s _ _ _ _
      rfl
  | succ fuel ih =>
      intro bases counts s hlen h1 h2 h3
      match bases with
      | [] => rfl
      | ch :: rest =>
        have hlen' : rest.length ≤ fuel := by
          simp only [List.length_cons] at hlen
          omega
        have h1r : '*' ∉ rest := fun hm => h1 (List.mem_cons_of_mem _ hm)
        have h2r : ∀ c ∈ rest, iupacComponents c.toUpper = [] :=
          fun c hc => h2 c (List.mem_cons_of_mem _ hc)
        have h3r : indelOk rest := by
          have := indelOk_drop (k := 1) h3
          simpa using this
        simp only [parse_pileup_go]
        by_cases hc1 : ch = '^'
        · rw [if_pos hc1]
          have hrec := ih (rest.drop 1) { counts with caret := counts.caret + 1 }
            (s + 1) (by rw [List.length_drop]; omega)
            (star_not_mem_drop h1r) (iupac_none_drop h2r) (indelOk_drop h3r)
          rw [sumCounts_caret] at hrec
          omega
        · rw [if_neg hc1]
          by_cases hc2 : ch = '$'
          · rw [if_pos hc2]
            have hrec := ih rest { counts with dollar := counts.dollar + 1 }
              (s + 1) hlen' h1r h2r h3r
            rw [sumCounts_dollar] at hrec
            omega
          · rw [if_neg hc2]
            by_cases hc3 : ch = '.'
            · rw [if_pos hc3]
              have hrec := ih rest { counts with dot := counts.dot + 1 }
                (s + 1) hlen' h1r h2r h3r
              rw [sumCounts_dot] at hrec
              omega
            · rw [if_neg hc3]
              by_cases hc4 : ch = ','
              · rw [if_pos hc4]
                have hrec := ih rest { counts with comma := counts.comma + 1 }
                  (s + 1) hlen' h1r h2r h3r
                rw [sumCounts_comma] at hrec
                omega
              · rw [if_neg hc4]
                by_cases hc5 : ch = '+' ∨ ch = '-'
                · rw [if_pos hc5]
                  have hd : ((rest)[0]?.elim false Char.isDigit) = true := by
                    have h0 := h3 0 (by simp)
                      (by rcases hc5 with h | h <;> rw [h] <;> simp)
                    simpa using h0
                  have hds : rest.takeWhile Char.isDigit ≠ [] := by
                    rcases rest with _ | ⟨d, rest2⟩
                    · simp at hd
                    · simp only [List.getElem?_cons_zero, Option.elim] at hd
                      rw [List.takeWhile_cons, if_pos hd]
                      simp
                  rw [if_neg hds]
                  have hrec := ih
                    (rest.drop ((rest.takeWhile Char.isDigit).length +
                      digitVal (rest.takeWhile Char.isDigit)))
                    (bumpIndel counts ch) (s + 1)
                    (by rw [List.length_drop]; omega)
                    (star_not_mem_drop h1r) (iupac_none_drop h2r)
                    (indelOk_drop h3r)
                  rw [sumCounts_bumpIndel] at hrec
                  omega
                · rw [if_neg hc5]
                  by_cases hc6 : ch.toUpper = 'A' ∨ ch.toUpper = 'C' ∨
                      ch.toUpper = 'G' ∨ ch.toUpper = 'T' ∨ ch.toUpper = 'N'
                  · rw [if_pos hc6]
                    have hrec := ih rest (bumpBase counts ch.toUpper)
                      (s + 1) hlen' h1r h2r h3r
                    rw [sumCounts_bumpBase counts ch.toUpper hc6] at hrec
                    omega
                  · rw [if_neg hc6]
                    have hc7 : ¬ ch = '*' :=
                      fun hEq => h1 (by rw [← hEq] at *; exact List.mem_cons_self _ _)
                    rw [if_neg hc7]
                    have hc8 : ¬ iupacComponents ch.toUpper ≠ [] := by
                      intro hne
                      exact hne (h2 ch (List.mem_cons_self _ _))
                    rw [if_neg hc8]
                    have hrec := ih rest { counts with other := counts.other + 1 }
                      (s + 1) hlen' h1r h2r h3r
                    rw [sumCounts_other] at hrec
                    omega

/-- Claim C4 (amended): for a pileup base field containing no `*`
deletion placeholder, no IUPAC ambiguity code, and whose every indel
marker is immediately followed by a digit, the sum of all category counts
equals the number of pileup symbols consumed while parsing the field. -/
theorem parse_pileup_line_symbol_sum (bases : List Char)
    (h1 : '*' ∉ bases)
    (h2 : ∀ c ∈ bases, iupacComponents c.toUpper = [])
    (h3 : indelOk bases) :
    sumCounts (parse_pileup_bases bases).1 = (parse_pileup_bases bases).2 := by
  have h := parse_pileup_go_sum bases.length bases PileupCounts.zero 0
    (le_refl _) h1 h2 h3
  unfold parse_pileup_bases
  have hz : sumCounts PileupCounts.zero = 0 := rfl
  omega

/-- Witness for the amended C4 at a concrete field: `..,,Ag$+3ACG`
(eight symbols: 2 ref-forward, 2 ref-reverse, two bases, one read end,
one insertion whose three inserted bases are skipped). -/
theorem parse_pileup_line_symbol_sum_witness :
    sumCounts (parse_pileup_bases
      ['.','.',',',',','A','g','$','+','3','A','C','G']).1 =
      (parse_pileup_bases ['.','.',',',',','A','g','$','+','3','A','C','G']).2 ∧
    (parse_pileup_bases ['.','.',',',',','A','g','$','+','3','A','C','G']).2 = 8 := by
  constructor
  · exact parse_pileup_line_symbol_sum
      ['.','.',',',',','A','g','$','+','3','A','C','G']
      (by decide) (by decide) (by decide)
  · decide

/-- Claim C7, code bug: for `a = "AT"`, `b = "AG"` with the default
scores (+2, −1, −2), the best local-alignment score is 2 > 0, so the
claim requires 1-based endpoints to be returned; but the best cell (1,1)
is not the last cell of the matrix, so the loop variable `bj` holds the
character `G` when the fill ends and the traceback raises `TypeError`. -/
theorem smith_waterman_endpoints_crash :
    (swFill ['A','T'] ['A','G'] 2 (-1) (-2)).best = 2 ∧
    smith_waterman_endpoints ['A','T'] ['A','G'] 2 (-1) (-2) =
      SWResult.typeError := by decide

lemma foldl_stepMin_keep_zero (l : List (Bool × ℕ × ℕ)) (b : Bool × ℕ × ℕ)
    (hb : b.2.2 = 0) : l.foldl stepMin (some b) = some b := by
  induction l with
  | nil => rfl
  | cons c rest ih =>
      rw [List.foldl_cons]
      have hstep : stepMin (some b) c = some b := by
        simp only [stepMin]
        rw [if_neg]
        omega
      rw [hstep, ih]

lemma stepMin_zero (acc : Option (Bool × ℕ × ℕ)) (c : Bool × ℕ × ℕ)
    (hc : c.2.2 = 0) : ∃ b, stepMin acc c = some b ∧ b.2.2 = 0 := by
  match acc with
  | none => exact ⟨c, rfl, hc⟩
  | some b =>
    simp only [stepMin]
    by_cases h : c.2.2 < b.2.2
    · rw [if_pos h]
      exact ⟨c, rfl, hc⟩
    · rw [if_neg h]
      exact ⟨b, rfl, by omega⟩

lemma processCandidate_no_break (first circ : List Char) (kFirst maxMm : ℕ)
    (orient : Bool) (qs : List Char) (best : Option (Bool × ℕ × ℕ)) :
    (processCandidate first circ kFirst maxMm orient qs best).1 =
      (candHead first kFirst maxMm orient qs ++
        candCirc circ kFirst maxMm orient qs ++
        candFirst first kFirst maxMm orient qs).foldl stepMin best := by
  unfold processCandidate
  by_cases hbrk : wildcardMismatches first (qs.take kFirst) ≤ maxMm ∧
      wildcardMismatches first (qs.take kFirst) = 0
  · rw [if_pos hbrk]
    have hhead : candHead first kFirst maxMm orient qs =
        [(orient, 0, wildcardMismatches first (qs.take kFirst))] := by
      unfold candHead
      rw [if_pos hbrk.1]
    rw [List.foldl_append, List.foldl_append, hhead]
    simp only [List.foldl_cons, List.foldl_nil]
    obtain ⟨b, hb, hb0⟩ := stepMin_zero best
      (orient, 0, wildcardMismatches first (qs.take kFirst)) hbrk.2
    rw [hb, foldl_stepMin_keep_zero _ _ hb0, foldl_stepMin_keep_zero _ _ hb0]
  · rw [if_neg hbrk]
    rw [List.foldl_append, List.foldl_append]

lemma processCandidate_break (first circ : List Char) (kFirst maxMm : ℕ)
    (orient : Bool) (qs : List Char) (best : Option (Bool × ℕ × ℕ))
    (h : (processCandidate first circ kFirst maxMm orient qs best).2 = true) :
    wildcardMismatches first (qs.take kFirst) = 0 ∧
    (processCandidate first circ kFirst maxMm orient qs best).1 =
      stepMin best (orient, 0, wildcardMismatches first (qs.take kFirst)) := by
  unfold processCandidate at h ⊢
  by_cases hbrk : wildcardMismatches first (qs.take kFirst) ≤ maxMm ∧
      wildcardMismatches first (qs.take kFirst) = 0
  · rw [if_pos hbrk]
    exact ⟨hbrk.2, rfl⟩
  · rw [if_neg hbrk] at h
    cases h

lemma rotate_best_eq_firstMin (ref q : List Char) (kFirst maxMm : ℕ) :
    rotate_best ref q kFirst maxMm =
      firstMinBy (foundCandidates ref q kFirst maxMm) := by
  unfold rotate_best firstMinBy foundCandidates
  rw [List.foldl_append]
  by_cases hb : (processCandidate (ref.take kFirst)
      (ref.drop (ref.length - kFirst) ++ ref.take kFirst) kFirst maxMm true q
      none).2 = true
  · obtain ⟨hz, hp1⟩ := processCandidate_break _ _ _ _ _ _ _ hb
    rw [if_pos hb, hp1,
      ← processCandidate_no_break (ref.take kFirst)
        (ref.drop (ref.length - kFirst) ++ ref.take kFirst) kFirst maxMm true q
        none, hp1]
    obtain ⟨b, hbEq, hb0⟩ := stepMin_zero none
      (true, 0, wildcardMismatches (ref.take kFirst) (q.take kFirst)) hz
    rw [hbEq, foldl_stepMin_keep_zero _ _ hb0]
  · rw [if_neg hb,
      processCandidate_no_break (ref.take kFirst)
        (ref.drop (ref.length - kFirst) ++ ref.take kFirst) kFirst maxMm false
        (revcomp q),
      processCandidate_no_break (ref.take kFirst)
        (ref.drop (ref.length - kFirst) ++ ref.take kFirst) kFirst maxMm true q
        none]

/-- Counterexample to claim C3 as stated: for reference "GATC" and query
"TCGATC" with anchor length 2 and tolerance 1, the forward circular
candidate (cut 2) has 0 actual mismatches and is found first, so the
claim selects it (rotation "GATCTC"); but the code records the pattern
candidate with mismatch count max_mismatches = 1, so the later
reverse-complement head candidate (0 mismatches) replaces it and the code
returns the reverse complement "GATCGA". -/
theorem rotate_to_reference_anchor_cex :
    claimBest ['G','A','T','C'] ['T','C','G','A','T','C'] 2 1 =
      some (true, 2, 0) ∧
    rotate_best ['G','A','T','C'] ['T','C','G','A','T','C'] 2 1 =
      some (false, 0, 0) ∧
    rotate_to_reference_anchor ['G','A','T','C'] ['T','C','G','A','T','C'] 2 1 =
      ['G','A','T','C','G','A'] ∧
    (['T','C','G','A','T','C'].drop 2 ++ ['T','C','G','A','T','C'].take 2) =
      ['G','A','T','C','T','C'] ∧
    rotate_to_reference_anchor ['G','A','T','C'] ['T','C','G','A','T','C'] 2 1 ≠
      ['G','A','T','C','T','C'] := by decide

/-- Claim C3 (amended): among all candidates found across the two
orientations and three strategies, the selected candidate is the first
one attaining the minimum RECORDED mismatch count, where a head candidate
records its actual head mismatch count and the circular-pattern and
first-anchor candidates record the tolerance `max_mismatches`; ties keep
the earlier candidate, hence the orientation found first; and if no
candidate satisfies the tolerance, the input sequence is returned
unchanged. -/
theorem rotate_to_reference_anchor_spec (ref qOrig : List Char)
    (kFirst maxMm : ℕ) :
    rotate_best (ref.map Char.toUpper) (qOrig.map Char.toUpper) kFirst maxMm =
      firstMinBy (foundCandidates (ref.map Char.toUpper)
        (qOrig.map Char.toUpper) kFirst maxMm) ∧
    (foundCandidates (ref.map Char.toUpper) (qOrig.map Char.toUpper)
        kFirst maxMm = [] →
      rotate_to_reference_anchor ref qOrig kFirst maxMm = qOrig) := by
  refine ⟨rotate_best_eq_firstMin _ _ _ _, ?_⟩
  intro hempty
  unfold rotate_to_reference_anchor
  by_cases hcond : ref.length < kFirst ∨ qOrig.length = 0
  · rw [if_pos hcond]
  · rw [if_neg hcond]
    rw [rotate_best_eq_firstMin, hempty]
    rfl

/-- Witness for the amended C3: supplies the empty-candidate hypothesis
at a concrete input (reference "AAAA", query "CCCC", anchor 4,
tolerance 0: no strategy matches, so the query is returned unchanged). -/
theorem rotate_to_reference_anchor_spec_witness :
    rotate_to_reference_anchor ['A','A','A','A'] ['C','C','C','C'] 4 0 =
      ['C','C','C','C'] := by
  exact (rotate_to_reference_anchor_spec ['A','A','A','A'] ['C','C','C','C']
    4 0).2 (by decide)

lemma scanl_add_getD (l : List ℕ) : ∀ (a j : ℕ), j ≤ l.length →
    (List.scanl (· + ·) a l).getD j 0 = a + (l.take j).sum := by
  induction l with
  | nil =>
      intro a j hj
      have hj0 : j = 0 := by simpa using hj
      subst hj0
      simp [List.scanl]
  | cons x xs ih =>
      intro a j hj
      rw [List.scanl_cons]
      cases j with
      | zero => simp
      | succ j2 =>
          simp only [List.singleton_append, List.getD_cons_succ,
            List.take_succ_cons, List.sum_cons]
          rw [ih (a + x) j2 (by simpa using hj)]
          omega

lemma sum_take_extend (l : List ℤ) (t n : ℕ) (v : ℤ) (ht : t ≤ n)
    (hv : l[n]? = some v) :
    ((l.drop t).take (n + 1 - t)).sum = ((l.drop t).take (n - t)).sum + v := by
  have h1 : n + 1 - t = (n - t) + 1 := by omega
  rw [h1, List.take_succ, List.sum_append]
  have h2 : (l.drop t)[n - t]? = some v := by
    rw [List.getElem?_drop]
    have h3 : t + (n - t) = n := by omega
    rw [h3]
    exact hv
  rw [h2]
  simp

lemma kadaneStep_inv (score : List ℤ) (n : ℕ) (v : ℤ) (st : KadState)
    (hv : score[n]? = some v) (hinv : KadInv score n st) :
    KadInv score (n + 1) (kadaneStep st (n, v)) := by
  obtain ⟨ht, hcur, hcur0, hmax0, hbest⟩ := hinv
  have hext : ((score.drop st.temp_s).take (n + 1 - st.temp_s)).sum =
      st.cur_sum + v := by
    rw [sum_take_extend score st.temp_s n v ht hv, ← hcur]
  unfold kadaneStep
  by_cases h1 : st.cur_sum + v ≤ 0
  · rw [if_pos h1]
    unfold KadInv
    dsimp only
    refine ⟨by omega, by simp, le_refl 0, hmax0, ?_⟩
    rcases hbest with h | ⟨bs, be, hb1, hb2, hb3, hb4, hb5, hb6⟩
    · exact Or.inl h
    · exact Or.inr ⟨bs, be, hb1, hb2, hb3, by omega, hb5, hb6⟩
  · rw [if_neg h1]
    by_cases h2 : st.max_sum < st.cur_sum + v
    · rw [if_pos h2]
      unfold KadInv
      dsimp only
      refine ⟨by omega, hext.symm, by omega, by omega, Or.inr
        ⟨st.temp_s, n, rfl, rfl, ht, by omega, by omega, hext.symm⟩⟩
    · rw [if_neg h2]
      unfold KadInv
      dsimp only
      refine ⟨by omega, hext.symm, by omega, hmax0, ?_⟩
      rcases hbest with h | ⟨bs, be, hb1, hb2, hb3, hb4, hb5, hb6⟩
      · exact Or.inl h
      · exact Or.inr ⟨bs, be, hb1, hb2, hb3, by omega, hb5, hb6⟩

lemma kadane_fold_inv (score : List ℤ) :
    ∀ (xs : List ℤ) (n : ℕ) (st : KadState),
      score.drop n = xs → KadInv score n st →
      KadInv score (n + xs.length) ((xs.enumFrom n).foldl kadaneStep st) := by
  intro xs
  induction xs with
  | nil =>
      intro n st _ h
      simpa using h
  | cons v xs2 ih =>
      intro n st hdrop hinv
      rw [List.enumFrom_cons, List.foldl_cons]
      have hv : score[n]? = some v := by
        have h0 : (score.drop n)[0]? = some v := by rw [hdrop]; simp
        rw [List.getElem?_drop] at h0
        simpa using h0
      have hstep := kadaneStep_inv score n v st hv hinv
      have hdrop2 : score.drop (n + 1) = xs2 := by
        have h3 : score.drop (n + 1) = (score.drop n).drop 1 := by
          rw [List.drop_drop]
        rw [h3, hdrop]
        simp
      have hres := ih (n + 1) (kadaneStep st (n, v)) hdrop2 hstep
      have harith : n + 1 + xs2.length = n + (xs2.length + 1) := by omega
      rw [harith] at hres
      simpa using hres

lemma kadaneRun_inv (score : List ℤ) :
    KadInv score score.length (kadaneRun score) := by
  have h0 : KadInv score 0 ⟨0, 0, -1, -1, 0⟩ :=
    ⟨le_refl 0, by simp, le_refl 0, le_refl 0, Or.inl ⟨rfl, rfl, rfl⟩⟩
  have h := kadane_fold_inv score score 0 ⟨0, 0, -1, -1, 0⟩ (by simp) h0
  unfold kadaneRun
  have henum : score.enum = score.enumFrom 0 := rfl
  rw [henum]
  simpa using h

lemma detectScore_length (cons new : List Char) :
    (detectScore cons new).length = min cons.length new.length := by
  unfold detectScore detectComp detectMis
  rw [List.length_zipWith, List.length_zipWith, List.length_zipWith]
  omega

lemma detectComp_length (cons new : List Char) :
    (detectComp cons new).length = min cons.length new.length := by
  unfold detectComp
  rw [List.length_zipWith]

lemma prefComp_getD_diff (cons new : List Char) (s e : ℕ)
    (hse : s ≤ e + 1) (he : e + 1 ≤ (detectComp cons new).length) :
    (prefComp cons new).getD (e + 1) 0 - (prefComp cons new).getD s 0 =
      (((detectComp cons new).drop s).take (e + 1 - s)).sum := by
  unfold prefComp
  rw [scanl_add_getD _ _ _ he, scanl_add_getD _ _ _ (by omega)]
  have hsplit : (detectComp cons new).take (e + 1) =
      (detectComp cons new).take s ++
        ((detectComp cons new).drop s).take (e + 1 - s) := by
    have h2 : e + 1 = s + (e + 1 - s) := by omega
    nth_rewrite 1 [h2]
    rw [List.take_add]
  rw [hsplit, List.sum_append]
  omega

/-- Claim C6 (amended): the Inversion Block Detector returns none when no
sampled window qualifies against the adaptive threshold AND no contiguous
column range has positive mismatch excess (mismatches minus matches over
comparable columns) together with at least `max(min_span, 8000)`
comparable columns — the extra condition is the maximum-subarray
fallback; in particular two identical sequences produce no block. -/
theorem detect_inversion_block_spec (cons new : List Char) (window : ℕ)
    (thr : ℚ) (minSpan : ℕ)
    (hwin : ∀ s ∈ windowStarts new.length window (detectStep window),
      windowQualifies cons new window thr s = none)
    (hseg : ∀ s e : ℕ, s ≤ e → e < new.length →
      (((detectScore cons new).drop s).take (e + 1 - s)).sum ≤ 0 ∨
      (((detectComp cons new).drop s).take (e + 1 - s)).sum <
        max minSpan 8000) :
    detect_inversion_block cons new window thr minSpan = none := by
  unfold detect_inversion_block
  by_cases hc : cons.length ≠ new.length ∨ new.length = 0
  · rw [if_pos hc]
  · rw [if_neg hc]
    push_neg at hc
    have hbad : bad_windows cons new window thr = [] := by
      unfold bad_windows
      rw [List.filterMap_eq_nil_iff]
      exact hwin
    have hstage1 : detectStage1 cons new window thr minSpan = none := by
      unfold detectStage1
      rw [if_neg (by rw [hbad]; simp)]
    rw [hstage1]
    show detectStage2 cons new minSpan = none
    unfold detectStage2
    by_cases hacc : 0 < (kadaneRun (detectScore cons new)).max_sum ∧
        0 ≤ (kadaneRun (detectScore cons new)).best_s
    · rw [if_pos hacc]
      have hinv := kadaneRun_inv (detectScore cons new)
      obtain ⟨_, _, _, _, hbest⟩ := hinv
      rcases hbest with ⟨_, _, hzero⟩ | ⟨bs, be, hb1, hb2, hb3, hb4, hb5, hb6⟩
      · omega
      · have hbe : be < new.length := by
          rw [detectScore_length] at hb4
          omega
        have hcase := hseg bs be hb3 hbe
        rcases hcase with hneg | hcomp
        · rw [← hb6] at hneg
          omega
        · rw [if_neg]
          rw [hb1, hb2]
          simp only [Int.toNat_ofNat]
          rw [prefComp_getD_diff cons new bs be (by omega)
            (by rw [detectComp_length]; omega)]
          omega
    · rw [if_neg hacc]

/-- Witness for the amended C6: two identical short sequences "ACGT" with
the default parameters produce no block. -/
theorem detect_inversion_block_spec_witness :
    detect_inversion_block ['A','C','G','T'] ['A','C','G','T'] 400 (60/100)
      2000 = none := by
  apply detect_inversion_block_spec
  · intro s hs
    rw [show windowStarts (['A','C','G','T'] : List Char).length 400
      (detectStep 400) = [] from rfl] at hs
    cases hs
  · intro s e hse he
    left
    have he4 : e < 4 := he
    interval_cases e <;> interval_cases s <;> decide

lemma flatten_replicate_length {α : Type} (m : ℕ) (p : List α) :
    ((List.replicate m p).flatten).length = m * p.length := by
  induction m with
  | zero => simp
  | succ m2 ih =>
      rw [List.replicate_succ, List.flatten_cons, List.length_append, ih]
      ring

lemma flatten_replicate_sum (m : ℕ) (p : List ℕ) :
    ((List.replicate m p).flatten).sum = m * p.sum := by
  induction m with
  | zero => simp
  | succ m2 ih =>
      rw [List.replicate_succ, List.flatten_cons, List.sum_append, ih]
      ring

lemma zipWith_flatten_replicate {α β γ : Type} (f : α → β → γ)
    (p : List α) (q : List β) (h : p.length = q.length) (m : ℕ) :
    List.zipWith f ((List.replicate m p).flatten)
        ((List.replicate m q).flatten) =
      (List.replicate m (List.zipWith f p q)).flatten := by
  induction m with
  | zero => simp
  | succ m2 ih =>
      rw [List.replicate_succ, List.replicate_succ, List.replicate_succ,
        List.flatten_cons, List.flatten_cons, List.flatten_cons,
        List.zipWith_append _ _ _ _ _ h, ih]

lemma replicate_mul_eq_flatten {α : Type} (m k : ℕ) (a : α) :
    List.replicate (m * k) a =
      (List.replicate m (List.replicate k a)).flatten := by
  induction m with
  | zero => simp
  | succ m2 ih =>
      rw [List.replicate_succ, List.flatten_cons, ← ih]
      have h : (m2 + 1) * k = k + m2 * k := by ring
      rw [h, List.replicate_add]

lemma flatten_replicate_take_sum (p : List ℕ) (hp : 0 < p.length) :
    ∀ (m j : ℕ), j ≤ m * p.length →
      (((List.replicate m p).flatten).take j).sum =
        (j / p.length) * p.sum + (p.take (j % p.length)).sum := by
  intro m
  induction m with
  | zero =>
      intro j hj
      have hj0 : j = 0 := by omega
      subst hj0
      simp [Nat.zero_div, Nat.zero_mod]
  | succ m2 ih =>
      intro j hj
      rw [List.replicate_succ, List.flatten_cons]
      by_cases hsmall : j < p.length
      · rw [List.take_append_of_le_length (by omega)]
        rw [Nat.div_eq_of_lt hsmall, Nat.mod_eq_of_lt hsmall]
        simp
      · push_neg at hsmall
        rw [List.take_append_eq_append_take]
        rw [List.take_of_length_le (by omega)]
        have hlen : j - p.length ≤ m2 * p.length := by
          have := hj
          have hml : (m2 + 1) * p.length = m2 * p.length + p.length := by ring
          omega
        rw [List.sum_append, ih (j - p.length) hlen]
        have hdiv : j / p.length = (j - p.length) / p.length + 1 := by
          have h2 : j = (j - p.length) + 1 * p.length := by omega
          nth_rewrite 1 [h2]
          rw [Nat.add_mul_div_right _ _ hp]
        have hmod : j % p.length = (j - p.length) % p.length := by
          have h2 : j = (j - p.length) + p.length := by omega
          nth_rewrite 1 [h2]
          rw [Nat.add_mod_right]
        rw [hdiv, hmod]
        ring

lemma enumFrom_append2 {α : Type} :
    ∀ (xs ys : List α) (n : ℕ),
      List.enumFrom n (xs ++ ys) =
        List.enumFrom n xs ++ List.enumFrom (n + xs.length) ys := by
  intro xs
  induction xs with
  | nil => intro ys n; simp
  | cons x xs2 ih =>
      intro ys n
      rw [List.cons_append, List.enumFrom_cons, List.enumFrom_cons, ih,
        List.cons_append, List.length_cons]
      have h : n + 1 + xs2.length = n + (xs2.length + 1) := by omega
      rw [h]

lemma kadane_step3 (k : ℕ) (hk : 1 ≤ k) :
    List.foldl kadaneStep (kadS k)
      (List.enumFrom (3 * k) [(1 : ℤ), 1, -1]) = kadS (k + 1) := by
  simp only [List.enumFrom_cons, List.enumFrom_nil, List.foldl_cons,
    List.foldl_nil]
  have hk1 : kadaneStep (kadS k) (3 * k, (1 : ℤ)) =
      ⟨(k : ℤ) + 1, (k : ℤ) + 1, 0, 3 * (k : ℤ) - 2, 0⟩ := by
    unfold kadaneStep kadS
    dsimp only
    rw [if_neg (by omega), if_neg (by omega)]
  have hk2 : kadaneStep ⟨(k : ℤ) + 1, (k : ℤ) + 1, 0, 3 * (k : ℤ) - 2, 0⟩
      (3 * k + 1, (1 : ℤ)) =
      ⟨(k : ℤ) + 2, (k : ℤ) + 2, 0, 3 * (k : ℤ) + 1, 0⟩ := by
    unfold kadaneStep
    dsimp only
    rw [if_neg (by omega), if_pos (by omega)]
    simp only [KadState.mk.injEq, and_true, true_and]
    push_cast
    refine ⟨by omega, by omega, trivial, by omega⟩
  have hk3 : kadaneStep ⟨(k : ℤ) + 2, (k : ℤ) + 2, 0, 3 * (k : ℤ) + 1, 0⟩
      (3 * k + 1 + 1, (-1 : ℤ)) = kadS (k + 1) := by
    unfold kadaneStep kadS
    dsimp only
    rw [if_neg (by omega), if_neg (by omega)]
    simp only [KadState.mk.injEq, and_true, true_and]
    push_cast
    omega
  rw [hk1, hk2, hk3]

lemma kadane_periods :
    ∀ (m k : ℕ), 1 ≤ k →
      List.foldl kadaneStep (kadS k)
        (List.enumFrom (3 * k) ((List.replicate m [(1 : ℤ), 1, -1]).flatten)) =
        kadS (k + m) := by
  intro m
  induction m with
  | zero => intro k hk; rfl
  | succ m2 ih =>
      intro k hk
      rw [List.replicate_succ, List.flatten_cons, enumFrom_append2,
        List.foldl_append]
      rw [kadane_step3 k hk]
      have hlen : 3 * k + ([(1 : ℤ), 1, -1]).length = 3 * (k + 1) := by
        simp
        omega
      rw [hlen, ih (k + 1) (by omega)]
      have h2 : k + 1 + m2 = k + (m2 + 1) := by omega
      rw [h2]

lemma kadane_run_cex :
    kadaneRun ((List.replicate 2668 [(1 : ℤ), 1, -1]).flatten) = kadS 2668 := by
  unfold kadaneRun
  have hsplit : (List.replicate 2668 [(1 : ℤ), 1, -1]).flatten =
      [(1 : ℤ), 1, -1] ++ (List.replicate 2667 [(1 : ℤ), 1, -1]).flatten := by
    rw [show (2668 : ℕ) = 2667 + 1 from rfl, List.replicate_succ,
      List.flatten_cons]
  rw [hsplit]
  have henum : ([(1 : ℤ), 1, -1] ++
      (List.replicate 2667 [(1 : ℤ), 1, -1]).flatten).enum =
      List.enumFrom 0 ([(1 : ℤ), 1, -1] ++
        (List.replicate 2667 [(1 : ℤ), 1, -1]).flatten) := rfl
  rw [henum, enumFrom_append2, List.foldl_append]
  have hfirst : List.foldl kadaneStep ⟨0, 0, -1, -1, 0⟩
      (List.enumFrom 0 [(1 : ℤ), 1, -1]) = kadS 1 := by decide
  rw [hfirst]
  have hlen : 0 + ([(1 : ℤ), 1, -1]).length = 3 * 1 := by simp
  rw [hlen, kadane_periods 2667 1 (by omega)]

lemma cexCons_flatten :
    detectCexCons = (List.replicate 2668 ['A', 'A', 'A']).flatten := by
  unfold detectCexCons
  rw [show (8004 : ℕ) = 2668 * 3 from rfl, replicate_mul_eq_flatten]
  rfl

lemma cexComp_eq :
    detectComp detectCexCons detectCexNew =
      (List.replicate 2668 [1, 1, 1]).flatten := by
  unfold detectComp detectCexNew
  rw [cexCons_flatten,
    zipWith_flatten_replicate (fun a b => (colFlags a b).1)
      ['A', 'A', 'A'] ['C', 'C', 'A'] (by rfl) 2668]
  have hblock : List.zipWith (fun a b => (colFlags a b).1)
      ['A', 'A', 'A'] ['C', 'C', 'A'] = [1, 1, 1] := by decide
  rw [hblock]

lemma cexMis_eq :
    detectMis detectCexCons detectCexNew =
      (List.replicate 2668 [1, 1, 0]).flatten := by
  unfold detectMis detectCexNew
  rw [cexCons_flatten,
    zipWith_flatten_replicate (fun a b => (colFlags a b).2)
      ['A', 'A', 'A'] ['C', 'C', 'A'] (by rfl) 2668]
  have hblock : List.zipWith (fun a b => (colFlags a b).2)
      ['A', 'A', 'A'] ['C', 'C', 'A'] = [1, 1, 0] := by decide
  rw [hblock]

lemma cexScore_eq :
    detectScore detectCexCons detectCexNew =
      (List.replicate 2668 [(1 : ℤ), 1, -1]).flatten := by
  unfold detectScore
  rw [cexComp_eq, cexMis_eq,
    zipWith_flatten_replicate
      (fun c m => if c ≠ 0 then (if m ≠ 0 then (1 : ℤ) else -1) else 0)
      [1, 1, 1] [1, 1, 0] (by rfl) 2668]
  have hblock : List.zipWith
      (fun c m => if c ≠ 0 then (if m ≠ 0 then (1 : ℤ) else -1) else 0)
      [(1 : ℕ), 1, 1] [(1 : ℕ), 1, 0] = [(1 : ℤ), 1, -1] := by decide
  rw [hblock]

lemma cexCons_length : detectCexCons.length = 8004 := by
  unfold detectCexCons
  rw [List.length_replicate]

lemma cexNew_length : detectCexNew.length = 8004 := by
  unfold detectCexNew
  rw [flatten_replicate_length]
  rfl

lemma cexComp_sum : (detectComp detectCexCons detectCexNew).sum = 8004 := by
  rw [cexComp_eq, flatten_replicate_sum]
  rfl

lemma cexMis_sum : (detectMis detectCexCons detectCexNew).sum = 5336 := by
  rw [cexMis_eq, flatten_replicate_sum]
  rfl

lemma cexComp_length :
    (detectComp detectCexCons detectCexNew).length = 8004 := by
  rw [cexComp_eq, flatten_replicate_length]
  rfl

lemma cexMis_length :
    (detectMis detectCexCons detectCexNew).length = 8004 := by
  rw [cexMis_eq, flatten_replicate_length]
  rfl

lemma cexPrefComp (j : ℕ) (hj : j ≤ 8004) :
    (prefComp detectCexCons detectCexNew).getD j 0 = j := by
  unfold prefComp
  rw [scanl_add_getD _ 0 j (by rw [cexComp_length]; exact hj)]
  rw [cexComp_eq,
    flatten_replicate_take_sum [1, 1, 1] (by norm_num) 2668 j
      (by simp; omega)]
  rw [show (([1, 1, 1] : List ℕ)).length = 3 from rfl]
  have h3 : ∀ r : ℕ, r < 3 → ((([1, 1, 1] : List ℕ)).take r).sum = r := by
    decide
  rw [h3 (j % 3) (Nat.mod_lt _ (by norm_num))]
  have hs : (([1, 1, 1] : List ℕ)).sum = 3 := rfl
  rw [hs]
  omega

lemma cexPrefMis (j : ℕ) (hj : j ≤ 8004) :
    (prefMis detectCexCons detectCexNew).getD j 0 =
      j / 3 * 2 + (([1, 1, 0] : List ℕ).take (j % 3)).sum := by
  unfold prefMis
  have hlen : j ≤ (detectMis detectCexCons detectCexNew).length := by
    rw [cexMis_length]; exact hj
  rw [scanl_add_getD _ 0 j hlen]
  rw [cexMis_eq,
    flatten_replicate_take_sum [1, 1, 0] (by norm_num) 2668 j
      (by simp; omega)]
  rw [show (([1, 1, 0] : List ℕ)).length = 3 from rfl]
  have hs : (([1, 1, 0] : List ℕ)).sum = 2 := rfl
  rw [hs]
  omega

lemma cexGlobalRatio :
    globalRatio detectCexCons detectCexNew = 5336 / 8004 := by
  unfold globalRatio
  rw [cexComp_sum, cexMis_sum, if_pos (by norm_num)]
  norm_num

lemma cexLocalThr :
    localThr detectCexCons detectCexNew (9/10) = 9/10 := by
  unfold localThr
  rw [cexGlobalRatio]
  rw [min_eq_left (by norm_num), max_eq_right (by norm_num)]

lemma windowQualifies_none_of (cons new : List Char) (window : ℕ) (thr : ℚ)
    (s : ℕ) (h : windowRatio cons new window s < localThr cons new thr) :
    windowQualifies cons new window thr s = none := by
  unfold windowQualifies
  split
  · rfl
  · rw [if_neg (not_le.mpr h)]

lemma cexWindowRatio (s : ℕ) (hs : s + 400 ≤ 8004) :
    windowRatio detectCexCons detectCexNew 400 s < 9/10 := by
  unfold windowRatio
  rw [cexPrefComp (s + 400) hs, cexPrefComp s (by omega),
    cexPrefMis (s + 400) hs, cexPrefMis s (by omega)]
  rw [if_pos (by omega)]
  have hcomp : s + 400 - s = 400 := by omega
  rw [hcomp]
  have h2 : ∀ r : ℕ, r < 3 → ((([1, 1, 0] : List ℕ)).take r).sum ≤ 2 := by
    decide
  have hA := h2 ((s + 400) % 3) (Nat.mod_lt _ (by norm_num))
  have hnum : (s + 400) / 3 * 2 +
        (([1, 1, 0] : List ℕ).take ((s + 400) % 3)).sum -
      (s / 3 * 2 + (([1, 1, 0] : List ℕ).take (s % 3)).sum) ≤ 270 := by
    omega
  have hX : (((s + 400) / 3 * 2 +
        (([1, 1, 0] : List ℕ).take ((s + 400) % 3)).sum -
      (s / 3 * 2 + (([1, 1, 0] : List ℕ).take (s % 3)).sum) : ℕ) : ℚ) ≤
      270 := by exact_mod_cast hnum
  have hden : ((400 : ℕ) : ℚ) = 400 := by norm_num
  rw [hden]
  rw [div_lt_iff (by norm_num)]
  calc (((s + 400) / 3 * 2 +
        (([1, 1, 0] : List ℕ).take ((s + 400) % 3)).sum -
      (s / 3 * 2 + (([1, 1, 0] : List ℕ).take (s % 3)).sum) : ℕ) : ℚ)
      ≤ 270 := hX
    _ < 9/10 * 400 := by norm_num

lemma cexBadWindows :
    bad_windows detectCexCons detectCexNew 400 (9/10) = [] := by
  unfold bad_windows
  rw [List.filterMap_eq_nil]
  intro s hs
  apply windowQualifies_none_of
  rw [cexLocalThr]
  rw [cexNew_length] at hs
  rw [show detectStep 400 = 100 from rfl] at hs
  unfold windowStarts at hs
  rw [show (8004 + 1 - 400 + 100 - 1) / 100 = 77 from by norm_num] at hs
  rw [List.mem_range'] at hs
  obtain ⟨i, hi, hse⟩ := hs
  subst hse
  exact cexWindowRatio _ (by omega)

/-- Counterexample to C6: against the 8004-column consensus of all 'A',
the newest row "CCA"×2668 has every sampled 400-column window mismatch
ratio (at most 270/400) and the global ratio (5336/8004) strictly below
the adaptive threshold 9/10, yet `_detect_inversion_block` returns the
block (0, 8002) through its maximum-subarray fallback instead of none. -/
theorem detect_inversion_block_cex :
    (∀ s ∈ windowStarts detectCexNew.length 400 (detectStep 400),
        windowRatio detectCexCons detectCexNew 400 s <
          localThr detectCexCons detectCexNew (9/10)) ∧
    globalRatio detectCexCons detectCexNew <
        localThr detectCexCons detectCexNew (9/10) ∧
    detect_inversion_block detectCexCons detectCexNew 400 (9/10) 2000 =
      some (0, 8002) := by
  refine ⟨?_, ?_, ?_⟩
  · intro s hs
    rw [cexLocalThr]
    rw [cexNew_length] at hs
    rw [show detectStep 400 = 100 from rfl] at hs
    unfold windowStarts at hs
    rw [show (8004 + 1 - 400 + 100 - 1) / 100 = 77 from by norm_num] at hs
    rw [List.mem_range'] at hs
    obtain ⟨i, hi, hse⟩ := hs
    subst hse
    exact cexWindowRatio _ (by omega)
  · rw [cexLocalThr, cexGlobalRatio]
    norm_num
  · unfold detect_inversion_block
    have h0 : ¬(detectCexCons.length ≠ detectCexNew.length ∨
        detectCexNew.length = 0) := by
      rw [cexCons_length, cexNew_length]
      norm_num
    rw [if_neg h0]
    have hs1 : detectStage1 detectCexCons detectCexNew 400 (9/10) 2000 =
        none := by
      unfold detectStage1
      rw [cexBadWindows]
      rw [if_neg (by simp)]
    rw [hs1]
    unfold detectStage2
    have hkad : kadaneRun (detectScore detectCexCons detectCexNew) =
        kadS 2668 := by
      rw [cexScore_eq]
      exact kadane_run_cex
    rw [hkad]
    have hb : kadS 2668 = ⟨2669, 2668, 0, 8002, 0⟩ := by
      unfold kadS
      norm_num
    rw [hb]
    dsimp only
    rw [if_pos (by norm_num)]
    rw [show ((8002 : ℤ)).toNat + 1 = 8003 from rfl,
      show ((0 : ℤ)).toNat = 0 from rfl]
    rw [cexPrefComp 8003 (by norm_num), cexPrefComp 0 (by norm_num)]
    rw [if_pos (by norm_num)]
    rfl
